import Mathlib

/-!
Verification development for the wireframe-generator app (src/app.py).

The file embeds, as executable Lean definitions, the pieces of the program
that the specification's claims are about:

* `extract_json_from_response` (app.py lines 55-65): the regex-based fenced
  code block search followed by `json.loads`;
* the post-parse acceptance check of `generate_website_json`
  (lines 126-128): `if not wireframe_data or "pages" not in wireframe_data`;
* the per-page composition of `generate_multi_page_html` (lines 208-231):
  page id / title defaults, element concatenation, the stable sort by `y`,
  and the `current_max_y + 120` minimum-height computation;
* `generate_element_html` (lines 138-193): per-type style resolution;
* the `showPage` page-switching script (lines 415-429) embedded in the
  generated document, modelled as a transition on an explicit DOM state.

JSON itself (the dict/list/str/int values produced by `json.loads` and
consumed by `json.dumps(..., indent=2)`) is modelled by the inductive `Jv`
below, together with an executable parser and serializer that follow the
behaviour of Python's `json` module on the fragment the program exercises
(numbers are modelled as integers; floats, `NaN`/`Infinity` literals and
lone surrogate escapes are outside the modelled fragment).
-/

/-- Whitespace characters skipped by Python's `json` scanner (`' \t\n\r'`). -/
def isJWs (c : Char) : Bool := c = ' ' || c = '\t' || c = '\n' || c = '\r'

/-- ASCII whitespace matched by the regex class `\s` used in the fenced-block
pattern of `extract_json_from_response`. -/
def isRWs (c : Char) : Bool :=
  c = ' ' || c = '\t' || c = '\n' || c = '\r' || c = '\x0b' || c = '\x0c'

/-- `leadsWith p s` is true when the pattern `p` is an initial run of `s`. -/
def leadsWith : List Char → List Char → Bool
  | [], _ => true
  | _ :: _, [] => false
  | p :: ps, c :: cs => p = c && leadsWith ps cs

/-- `hasSub p s`: some suffix of `s` begins with `p` (Python's `p in s` on
strings, used by `"pages" in wireframe_data` when the parsed value is a
string). -/
def hasSub (p : List Char) : List Char → Bool
  | [] => leadsWith p []
  | c :: cs => leadsWith p (c :: cs) || hasSub p cs

/-- Decimal digit character for a value below 10. -/
def digitChar (d : Nat) : Char := Char.ofNat (48 + d)

/-- Numeric value of a decimal digit character. -/
def digitVal (c : Char) : Nat := c.toNat - 48

/-- Fuel-driven most-significant-first decimal expansion; `natDigsGo f n`
is correct whenever `n ≤ f` (each division by ten consumes one unit). -/
def natDigsGo : Nat → Nat → List Char
  | 0, _ => []
  | f + 1, n => if n = 0 then [] else natDigsGo f (n / 10) ++ [digitChar (n % 10)]

/-- Decimal rendering of a natural number, as `str()` produces it. -/
def natToDec (n : Nat) : List Char := if n = 0 then ['0'] else natDigsGo n n

/-- Decimal rendering of an integer, as `str()` / `json.dumps` produce it. -/
def intToDec : Int → List Char
  | .ofNat n => natToDec n
  | .negSucc m => '-' :: natToDec (m + 1)

/-- Lowercase hex digit, as Python's `\uXXXX` escapes use. -/
def hexDigitChar (d : Nat) : Char :=
  if d < 10 then Char.ofNat (48 + d) else Char.ofNat (87 + d)

/-- Value of a hex digit character (either case accepted, as in Python). -/
def hexVal (c : Char) : Nat :=
  if c.toNat ≤ 57 then c.toNat - 48
  else if c.toNat ≤ 70 then c.toNat - 55
  else c.toNat - 87

/-- Hex digit recognizer. -/
def isHexDig (c : Char) : Bool :=
  ('0' ≤ c && c ≤ '9') || ('a' ≤ c && c ≤ 'f') || ('A' ≤ c && c ≤ 'F')

/-- Four-digit lowercase hex rendering of `n % 0x10000`. -/
def hex4 (n : Nat) : List Char :=
  [hexDigitChar (n / 4096 % 16), hexDigitChar (n / 256 % 16),
   hexDigitChar (n / 16 % 16), hexDigitChar (n % 16)]

/-- JSON values as Python's `json` module materializes them: `dict`s are
key-value lists in insertion order, numbers are modelled as integers. -/
inductive Jv where
  | null
  | bool (b : Bool)
  | num (n : Int)
  | str (s : List Char)
  | arr (xs : List Jv)
  | obj (kvs : List (List Char × Jv))

/-- Keys of an object member list. -/
def jKeys (kvs : List (List Char × Jv)) : List (List Char) := kvs.map (·.1)

/-- Python `dict` lookup on a member list (keys are unique in any value that
`json.loads` produces, so first match is the dict binding). -/
def jGet (k : List Char) : List (List Char × Jv) → Option Jv
  | [] => none
  | (k', v) :: tl => if k' = k then some v else jGet k tl

mutual
/-- Well-formedness: every object in the value has pairwise distinct keys
(true of every value obtained from a Python `dict`). -/
def wfV : Jv → Bool
  | .null => true
  | .bool _ => true
  | .num _ => true
  | .str _ => true
  | .arr xs => wfL xs
  | .obj kvs => (jKeys kvs).Nodup && wfO kvs

def wfL : List Jv → Bool
  | [] => true
  | x :: xs => wfV x && wfL xs

def wfO : List (List Char × Jv) → Bool
  | [] => true
  | (_, v) :: tl => wfV v && wfO tl
end

/-- Python truthiness of a JSON value (`not wireframe_data`). -/
def truthy : Jv → Bool
  | .null => false
  | .bool b => b
  | .num n => n ≠ 0
  | .str s => !s.isEmpty
  | .arr xs => !xs.isEmpty
  | .obj kvs => !kvs.isEmpty

/-- Escape of one character as `json.dumps` (default `ensure_ascii=True`)
produces it: short escapes, printable ASCII raw, `\uXXXX` otherwise, with
surrogate pairs above the basic plane. -/
def escChar (c : Char) : List Char :=
  if c = '"' then ['\\', '"']
  else if c = '\\' then ['\\', '\\']
  else if c = '\n' then ['\\', 'n']
  else if c = '\r' then ['\\', 'r']
  else if c = '\t' then ['\\', 't']
  else if c = '\x08' then ['\\', 'b']
  else if c = '\x0c' then ['\\', 'f']
  else if 0x20 ≤ c.toNat && c.toNat < 0x7f then [c]
  else if c.toNat < 0x10000 then '\\' :: 'u' :: hex4 c.toNat
  else ('\\' :: 'u' :: hex4 (0xd800 + (c.toNat - 0x10000) / 0x400)) ++
       ('\\' :: 'u' :: hex4 (0xdc00 + (c.toNat - 0x10000) % 0x400))

/-- Escape of a whole string body. -/
def escStr : List Char → List Char
  | [] => []
  | c :: cs => escChar c ++ escStr cs

/-- A serialized JSON string, quotes included. -/
def dumpStr (s : List Char) : List Char := '"' :: escStr s ++ ['"']

/-- Indentation for nesting level `L` under `indent=2`. -/
def indC (L : Nat) : List Char := List.replicate (2 * L) ' '

mutual
/-- Serialization of a value at nesting level `L`, following
`json.dumps(value, indent=2)` as used for the JSON download in `main`
(app.py line 569): each container member on its own line, item separator
`,` and key separator `: `, empty containers inline. -/
def dumpV : Nat → Jv → List Char
  | _, .null => ['n', 'u', 'l', 'l']
  | _, .bool true => ['t', 'r', 'u', 'e']
  | _, .bool false => ['f', 'a', 'l', 's', 'e']
  | _, .num n => intToDec n
  | _, .str s => dumpStr s
  | _, .arr [] => ['[', ']']
  | L, .arr (x :: xs) =>
      '[' :: '\n' :: (indC (L + 1) ++ dumpV (L + 1) x ++ dumpArrTl (L + 1) xs)
        ++ '\n' :: (indC L ++ [']'])
  | _, .obj [] => ['\x7b', '\x7d']
  | L, .obj ((k, v) :: tl) =>
      '\x7b' :: '\n' :: (indC (L + 1) ++ dumpStr k ++ ':' :: ' ' ::
        (dumpV (L + 1) v ++ dumpObjTl (L + 1) tl))
        ++ '\n' :: (indC L ++ ['\x7d'])

/-- Remaining array items, each preceded by `,\n` and indentation. -/
def dumpArrTl : Nat → List Jv → List Char
  | _, [] => []
  | L, x :: xs => ',' :: '\n' :: (indC L ++ dumpV L x ++ dumpArrTl L xs)

/-- Remaining object members, each preceded by `,\n` and indentation. -/
def dumpObjTl : Nat → List (List Char × Jv) → List Char
  | _, [] => []
  | L, (k, v) :: tl =>
      ',' :: '\n' :: (indC L ++ dumpStr k ++ ':' :: ' ' ::
        (dumpV L v ++ dumpObjTl L tl))
end

/-- `json.dumps(v, indent=2)`. -/
def json_dumps (v : Jv) : List Char := dumpV 0 v

/-- Whitespace skipping of the `json` scanner. -/
def skipWs (s : List Char) : List Char := s.dropWhile isJWs

mutual
/-- Decode of a JSON string body after the opening quote, returning the
decoded characters and the input remaining after the closing quote.
Follows the strict `json.loads` scanner: control characters below 0x20 are
rejected, `\uXXXX` escapes are decoded, surrogate pairs are recombined
(a lone surrogate is rejected here, where Python would produce a string
holding an unpaired surrogate, which `Char` cannot represent). -/
def parseStr : List Char → Option (List Char × List Char)
  | [] => none
  | c :: r =>
    if c = '"' then some ([], r)
    else if c = '\\' then parseEsc r
    else if c.toNat < 0x20 then none
    else (parseStr r).map (fun p => (c :: p.1, p.2))

/-- Escape handling after a backslash. -/
def parseEsc : List Char → Option (List Char × List Char)
  | [] => none
  | e :: r1 =>
    if e = 'u' then parseU4 r1
    else if e = '"' then (parseStr r1).map (fun p => ('"' :: p.1, p.2))
    else if e = '\\' then (parseStr r1).map (fun p => ('\\' :: p.1, p.2))
    else if e = '/' then (parseStr r1).map (fun p => ('/' :: p.1, p.2))
    else if e = 'n' then (parseStr r1).map (fun p => ('\n' :: p.1, p.2))
    else if e = 'r' then (parseStr r1).map (fun p => ('\r' :: p.1, p.2))
    else if e = 't' then (parseStr r1).map (fun p => ('\t' :: p.1, p.2))
    else if e = 'b' then (parseStr r1).map (fun p => ('\x08' :: p.1, p.2))
    else if e = 'f' then (parseStr r1).map (fun p => ('\x0c' :: p.1, p.2))
    else none

/-- `\uXXXX` decoding after the `u`. -/
def parseU4 : List Char → Option (List Char × List Char)
  | a :: b :: cc :: d :: r2 =>
    if isHexDig a && isHexDig b && isHexDig cc && isHexDig d then
      let n := ((hexVal a * 16 + hexVal b) * 16 + hexVal cc) * 16 + hexVal d
      if n < 0xd800 || 0xe000 ≤ n then
        (parseStr r2).map (fun p => (Char.ofNat n :: p.1, p.2))
      else if n < 0xdc00 then parseLow n r2
      else none
    else none
  | _ => none

/-- The trailing low-surrogate escape of a pair whose high half decoded to
`n`. -/
def parseLow (n : Nat) : List Char → Option (List Char × List Char)
  | b1 :: b2 :: e1 :: e2 :: e3 :: e4 :: r3 =>
    if b1 = '\\' && b2 = 'u' && isHexDig e1 && isHexDig e2 &&
        isHexDig e3 && isHexDig e4 then
      let m := ((hexVal e1 * 16 + hexVal e2) * 16 + hexVal e3) * 16 + hexVal e4
      if 0xdc00 ≤ m && m < 0xe000 then
        (parseStr r3).map (fun p =>
          (Char.ofNat (0x10000 + (n - 0xd800) * 0x400 + (m - 0xdc00)) :: p.1, p.2))
      else none
    else none
  | _ => none
end

/-- Digit run at the head of the input. -/
def spanDigits : List Char → List Char × List Char
  | [] => ([], [])
  | c :: r =>
    if c.isDigit then
      let p := spanDigits r
      (c :: p.1, p.2)
    else ([], c :: r)

/-- Value of a most-significant-first digit list. -/
def digsVal (ds : List Char) : Nat := ds.foldl (fun a c => 10 * a + digitVal c) 0

/-- Unsigned integer literal: `0` or a run led by a nonzero digit (a leading
zero followed by more digits fails the overall parse in Python as well,
as the grammar stops the number after `0` and the context then rejects the
next digit). -/
def parseNatNum : List Char → Option (Nat × List Char)
  | '0' :: r =>
    match r with
    | c :: _ => if c.isDigit then none else some (0, r)
    | [] => some (0, [])
  | s =>
    let p := spanDigits s
    if p.1.isEmpty then none else some (digsVal p.1, p.2)

/-- Integer literal with optional sign. -/
def parseIntNum : List Char → Option (Int × List Char)
  | '-' :: r => (parseNatNum r).map (fun p => (-(p.1 : Int), p.2))
  | s => (parseNatNum s).map (fun p => ((p.1 : Int), p.2))

/-- Python `dict` insertion during object decoding: an existing key keeps
its position and gets the new value, a new key is appended. -/
def addKey (acc : List (List Char × Jv)) (k : List Char) (v : Jv) :
    List (List Char × Jv) :=
  if k ∈ jKeys acc then
    acc.map (fun p => if p.1 = k then (k, v) else p)
  else acc ++ [(k, v)]

mutual
/-- Fueled JSON value parser (the fuel only bounds nesting-driven recursion
and is made generous at the top entry `json_loads`). Mirrors the decoder
driving `json.loads` on the integer fragment: objects, arrays, strings,
`null`/`true`/`false`, signed integers. -/
def parseVal : Nat → List Char → Option (Jv × List Char)
  | 0, _ => none
  | fuel + 1, s =>
    match s with
    | [] => none
    | c :: r =>
      if c = '\x7b' then parseObjBody fuel (skipWs r)
      else if c = '[' then parseArrBody fuel (skipWs r)
      else if c = '"' then (parseStr r).map (fun p => (Jv.str p.1, p.2))
      else if c = 'n' then
        if leadsWith ['u', 'l', 'l'] r then some (Jv.null, r.drop 3) else none
      else if c = 't' then
        if leadsWith ['r', 'u', 'e'] r then some (Jv.bool true, r.drop 3) else none
      else if c = 'f' then
        if leadsWith ['a', 'l', 's', 'e'] r then some (Jv.bool false, r.drop 4)
        else none
      else (parseIntNum (c :: r)).map (fun p => (Jv.num p.1, p.2))

/-- Object interior after the opening brace and whitespace. -/
def parseObjBody : Nat → List Char → Option (Jv × List Char)
  | 0, _ => none
  | fuel + 1, s =>
    match s with
    | [] => parseMembers fuel [] []
    | c :: r =>
      if c = '\x7d' then some (Jv.obj [], r) else parseMembers fuel [] (c :: r)

/-- Object member loop: key string, colon, value, then comma or brace. -/
def parseMembers : Nat → List (List Char × Jv) → List Char →
    Option (Jv × List Char)
  | 0, _, _ => none
  | fuel + 1, acc, s =>
    match s with
    | '"' :: r =>
      match parseStr r with
      | none => none
      | some (k, r1) =>
        match skipWs r1 with
        | ':' :: r2 =>
          match parseVal fuel (skipWs r2) with
          | none => none
          | some (v, r3) =>
            match skipWs r3 with
            | ',' :: r4 => parseMembers fuel (addKey acc k v) (skipWs r4)
            | '\x7d' :: r4 => some (Jv.obj (addKey acc k v), r4)
            | _ => none
        | _ => none
    | _ => none

/-- Array interior after the opening bracket and whitespace. -/
def parseArrBody : Nat → List Char → Option (Jv × List Char)
  | 0, _ => none
  | fuel + 1, s =>
    match s with
    | [] => parseItems fuel [] []
    | c :: r =>
      if c = ']' then some (Jv.arr [], r) else parseItems fuel [] (c :: r)

/-- Array item loop: value, then comma or bracket. -/
def parseItems : Nat → List Jv → List Char → Option (Jv × List Char)
  | 0, _, _ => none
  | fuel + 1, acc, s =>
    match parseVal fuel s with
    | none => none
    | some (v, r) =>
      match skipWs r with
      | ',' :: r2 => parseItems fuel (acc ++ [v]) (skipWs r2)
      | ']' :: r2 => some (Jv.arr (acc ++ [v]), r2)
      | _ => none
end

/-- `json.loads`: whitespace-framed single value covering the whole input. -/
def json_loads (s : List Char) : Option Jv :=
  match parseVal (3 * s.length + 3) (skipWs s) with
  | some (v, rest) => if (skipWs rest).isEmpty then some v else none
  | none => none

/-- The closing context of the lazy group in the extraction pattern:
optional `\s*` whitespace followed by three backticks. -/
def closesFence (s : List Char) : Bool :=
  leadsWith ['`', '`', '`'] (s.dropWhile isRWs)

/-- Lazy body scan of `[\s\S]*?\}` against trailing `\s*` three-backticks:
stops at the first closing brace whose right context closes the fence,
consuming every earlier character (including braces and quotes — the
pattern knows nothing of JSON string syntax). Returns the consumed
characters including that closing brace. -/
def fenceBody : List Char → Option (List Char)
  | [] => none
  | c :: r =>
    if c = '\x7d' && closesFence r then some ['\x7d']
    else (fenceBody r).map (fun g => c :: g)

/-- Attempt of the full pattern at the head of the input:
the literal ` ```json `, greedy whitespace, an opening brace, the lazy
body, with the closing whitespace-backticks context. Returns group 1. -/
def matchFenceAt (s : List Char) : Option (List Char) :=
  if leadsWith ['`', '`', '`', 'j', 's', 'o', 'n'] s then
    match (s.drop 7).dropWhile isRWs with
    | '\x7b' :: r => (fenceBody r).map (fun g => '\x7b' :: g)
    | _ => none
  else none

/-- `re.search` of the fenced-block pattern: leftmost successful attempt. -/
def searchFence : List Char → Option (List Char)
  | [] => none
  | c :: r =>
    match matchFenceAt (c :: r) with
    | some g => some g
    | none => searchFence r

/-- app.py lines 55-65, `extract_json_from_response`: if the fenced pattern
matches, parse group 1, else parse the whole text; a parse failure reports
the raw output and yields `None`. -/
def extract_json_from_response (t : List Char) : Option Jv :=
  match searchFence t with
  | some g => json_loads g
  | none => json_loads t

/-- Python membership test `"pages" in wireframe_data` on a parsed value:
key lookup on a dict, element equality on a list, substring on a string;
`none` models the `TypeError` raised on numbers/booleans/`None`, which the
surrounding `try` of `generate_website_json` converts to a `None` result. -/
def pyContainsPages : Jv → Option Bool
  | .obj kvs => some (decide (['p', 'a', 'g', 'e', 's'] ∈ jKeys kvs))
  | .arr xs =>
    some (xs.any (fun x =>
      match x with
      | .str s => s = ['p', 'a', 'g', 'e', 's']
      | _ => false))
  | .str s => some (hasSub ['p', 'a', 'g', 'e', 's'] s)
  | _ => none

/-- app.py lines 126-128: the only validation applied to the parsed value —
`if not wireframe_data or "pages" not in wireframe_data: return None`. -/
def accept_wireframe (v : Jv) : Option Jv :=
  if !truthy v then none
  else
    match pyContainsPages v with
    | some true => some v
    | _ => none

/-- Modelled from the spec: the balanced-brace extraction the spec's §4.1
prescribes for bare objects ("extract the first top-level object via brace
matching — nested braces inside string values must not terminate extraction
early"). The code has no such routine; this definition follows the spec's
words so the claims can compare the code's extractor against it. Scans one
character at a time tracking brace depth, string state and escape state,
returning the consumed characters through the brace closing depth 1. -/
def braceScan : List Char → Nat → Bool → Bool → Option (List Char)
  | [], _, _, _ => none
  | c :: r, depth, inStr, esc =>
    if inStr then
      if esc then (braceScan r depth true false).map (c :: ·)
      else if c = '\\' then (braceScan r depth true true).map (c :: ·)
      else if c = '"' then (braceScan r depth false false).map (c :: ·)
      else (braceScan r depth true false).map (c :: ·)
    else
      if c = '"' then (braceScan r depth true false).map (c :: ·)
      else if c = '\x7b' then (braceScan r (depth + 1) false false).map (c :: ·)
      else if c = '\x7d' then
        if depth = 1 then some [c]
        else (braceScan r (depth - 1) false false).map (c :: ·)
      else (braceScan r depth false false).map (c :: ·)

/-- Modelled from the spec: locate the first top-level bare object by
balanced-brace matching (see `braceScan`). -/
def specExtractFirstObject : List Char → Option (List Char)
  | [] => none
  | '\x7b' :: r => (braceScan r 1 false false).map ('\x7b' :: ·)
  | _ :: r => specExtractFirstObject r

/-- Modelled from the spec: one page of the schema must carry a `layout`
key holding a list (possibly empty). -/
def specPageOk (p : Jv) : Bool :=
  match p with
  | .obj kvs =>
    match jGet ['l', 'a', 'y', 'o', 'u', 't'] kvs with
    | some (.arr _) => true
    | _ => false
  | _ => false

/-- Modelled from the spec: §4.1 step 3, "a `pages` key holding a list of at
least one page object; each page must have a `layout` list". The code's
`accept_wireframe` is compared against this. -/
def specSchemaOk (v : Jv) : Bool :=
  match v with
  | .obj kvs =>
    match jGet ['p', 'a', 'g', 'e', 's'] kvs with
    | some (.arr ps) => !ps.isEmpty && ps.all specPageOk
    | _ => false
  | _ => false

/-- Best-effort escape for Python `repr` of strings inside containers (the
quote-preference subtleties of `repr` are not modelled; no theorem in this
file interpolates a container into an f-string). -/
def pyEscC (c : Char) : List Char :=
  if c = '\\' then ['\\', '\\'] else if c = '\x27' then ['\\', '\x27'] else [c]

/-- Escape of a whole string for `repr`. -/
def pyEscS : List Char → List Char
  | [] => []
  | c :: cs => pyEscC c ++ pyEscS cs

mutual
/-- Python `str()` of a parsed JSON value, as an f-string interpolation
produces it: strings verbatim, ints in decimal, `True`/`False`/`None`,
containers through `repr`. -/
def pyStr : Jv → List Char
  | .null => ['N', 'o', 'n', 'e']
  | .bool true => ['T', 'r', 'u', 'e']
  | .bool false => ['F', 'a', 'l', 's', 'e']
  | .num n => intToDec n
  | .str s => s
  | .arr xs => '[' :: pyReprL xs ++ [']']
  | .obj kvs => '\x7b' :: pyReprO kvs ++ ['\x7d']

/-- Python `repr()` of a parsed JSON value (single-quoted strings). -/
def pyRepr : Jv → List Char
  | .null => ['N', 'o', 'n', 'e']
  | .bool true => ['T', 'r', 'u', 'e']
  | .bool false => ['F', 'a', 'l', 's', 'e']
  | .num n => intToDec n
  | .str s => '\x27' :: pyEscS s ++ ['\x27']
  | .arr xs => '[' :: pyReprL xs ++ [']']
  | .obj kvs => '\x7b' :: pyReprO kvs ++ ['\x7d']

/-- Comma-separated `repr` list items. -/
def pyReprL : List Jv → List Char
  | [] => []
  | [x] => pyRepr x
  | x :: y :: xs => pyRepr x ++ ',' :: ' ' :: pyReprL (y :: xs)

/-- Comma-separated `repr` dict entries. -/
def pyReprO : List (List Char × Jv) → List Char
  | [] => []
  | [(k, v)] => pyRepr (.str k) ++ ':' :: ' ' :: pyRepr v
  | (k, v) :: e :: tl =>
    pyRepr (.str k) ++ ':' :: ' ' :: pyRepr v ++ ',' :: ' ' :: pyReprO (e :: tl)
end

/-- `element.get(key)` on a dict element (`.get` on a non-dict raises in
Python; the theorems below only apply the renderer to dict elements). -/
def elGet (el : Jv) (k : List Char) : Option Jv :=
  match el with
  | .obj kvs => jGet k kvs
  | _ => none

/-- `.get` result coerced for a context that needs a `str` method
(`.upper()` / `.replace()`): a missing key yields the default, a string is
used as-is, any other present value raises (modelled as `none`). -/
def asStrOr (o : Option Jv) (d : List Char) : Option (List Char) :=
  match o with
  | none => some d
  | some (.str s) => some s
  | some _ => none

/-- `content.replace("'", "&#39;")`. -/
def replQuot : List Char → List Char
  | [] => []
  | c :: cs => (if c = '\x27' then ['&', '#', '3', '9', ';'] else [c]) ++ replQuot cs

/-- The parts of one rendered element block: the `class` interpolation, the
`element-label` text, the resolved `style` attribute and the inner div. -/
structure ElemBlock where
  cls : List Char
  label : List Char
  style : List Char
  inner : List Char
  deriving DecidableEq

/-- The base style every element receives (app.py lines 145-162), with the
geometry and style-override interpolations. -/
def baseStyleParts (x y w h tc fs : List Char) : List Char :=
  "\n        position: absolute;\n        left: ".data ++ x ++
  "%;\n        top: ".data ++ y ++
  "px;\n        width: ".data ++ w ++
  "%;\n        height: ".data ++ h ++
  "px;\n        box-sizing: border-box;\n        border-radius: 4px;\n        color: ".data ++ tc ++
  ";\n        display: flex;\n        align-items: center;\n        justify-content: center;\n        font-size: ".data ++ fs ++
  "px;\n        overflow: hidden;\n        font-weight: 500;\n        text-align: center;\n        padding: 10px;\n    ".data

/-- The style text appended by the `if`/`elif` chain for each recognized
type (app.py lines 166-186); an unrecognized type appends nothing. -/
def styleExtraFor (t : List Char) : List Char :=
  if t = "section".data then
    "background-color: #ffffff; border: 1px solid #e0e0e0; box-shadow: 0 1px 3px rgba(0,0,0,0.05);".data
  else if t = "card".data then
    "background-color: #f8f8ff; border: 1px solid #d0d0ff; box-shadow: 0 2px 5px rgba(0,0,0,0.08);".data
  else if t = "button".data then
    "background-color: #007bff; color: white; border: none; font-size: 14px; font-weight: 700; border-radius: 6px;".data
  else if t = "input".data then
    "background-color: white; border: 1px dashed #777; font-size: 14px; color: #555; justify-content: flex-start; padding-left: 15px;".data
  else if t = "image".data then
    "background-color: #e0e0e0; border: 2px dashed #999; color: #555;".data
  else if t = "text".data then
    "background-color: #ffffff; border: none; box-shadow: none; color: #333; justify-content: flex-start; align-items: flex-start; padding: 0 10px;".data
  else if t = "header".data || t = "footer".data then
    "background-color: #333333; color: white; border: none; font-size: 18px;".data
  else []

/-- The default inner div assigned before the chain (app.py line 164). -/
def defaultInner (content : List Char) : List Char :=
  "<div class=\x27editable-content\x27 style=\x27margin:0; max-height:100%; overflow:hidden; text-overflow:ellipsis;\x27>".data ++ content ++ "</div>".data

/-- The inner `editable-content` div chosen by the same chain; the final
branchless case is the default assigned before the chain. -/
def innerFor (t content : List Char) : List Char :=
  if t = "section".data then
    "<div class=\x27editable-content\x27 style=\x27margin:0; font-size:16px; font-weight:600; color:#555;\x27>SECTION: ".data ++ content ++ "</div>".data
  else if t = "card".data then
    "<div class=\x27editable-content\x27 style=\x27margin:0; font-size:14px; color:#555;\x27>CARD: ".data ++ content ++ "</div>".data
  else if t = "button".data then
    "<div class=\x27editable-content\x27>".data ++ content ++ "</div>".data
  else if t = "input".data then
    "<div class=\x27editable-content\x27>Input: ".data ++ content ++ "</div>".data
  else if t = "image".data then
    "<div class=\x27editable-content\x27 style=\x27margin:0; font-size:14px;\x27>[Image Placeholder: ".data ++ content ++ "]</div>".data
  else if t = "text".data then
    "<div class=\x27editable-content\x27 style=\x27margin:0; text-align:left; font-size:14px;\x27>".data ++ content ++ "</div>".data
  else if t = "header".data || t = "footer".data then
    "<div class=\x27editable-content\x27>".data ++ content ++ "</div>".data
  else defaultInner content

/-- The fully interpolated base style of one element (geometry and style
overrides resolved with their defaults). -/
def baseStyleOf (kvs : List (List Char × Jv)) : List Char :=
  baseStyleParts (pyStr ((jGet ['x'] kvs).getD (Jv.num 5)))
    (pyStr ((jGet ['y'] kvs).getD (Jv.num 0)))
    (pyStr ((jGet "width".data kvs).getD (Jv.num 90)))
    (pyStr ((jGet "height".data kvs).getD (Jv.num 80)))
    (pyStr ((jGet "textColor".data kvs).getD (Jv.str "#333".data)))
    (pyStr ((jGet "fontSize".data kvs).getD (Jv.num 14)))

/-- app.py lines 138-187, `generate_element_html` up to final assembly:
resolve type, content, geometry and style overrides into an `ElemBlock`.
`none` models the exception Python raises when the element is not a dict,
or when a present `type`/`content` value is not a string (`.upper()` /
`.replace()` on a non-str). -/
def generate_element_render (el : Jv) : Option ElemBlock :=
  match el with
  | .obj kvs =>
    match asStrOr (jGet ['t', 'y', 'p', 'e'] kvs) "section".data with
    | none => none
    | some t =>
      match asStrOr (jGet "content".data kvs) "Placeholder Content".data with
      | none => none
      | some c0 =>
        some ⟨t, t.map Char.toUpper,
              baseStyleOf kvs ++ styleExtraFor t,
              innerFor t (replQuot c0)⟩
  | _ => none

/-- Final assembly of the returned block markup (app.py lines 188-193). -/
def elemBlockHtml (b : ElemBlock) : List Char :=
  "\n        <div class=\x27element ".data ++ b.cls ++
  "\x27 style=\x27".data ++ b.style ++
  "\x27>\n            <span class=\x27element-label\x27>".data ++ b.label ++
  "</span>\n            ".data ++ b.inner ++ "\n        </div>\n    ".data

/-- `generate_element_html` as a string producer. -/
def generate_element_html (el : Jv) : Option (List Char) :=
  (generate_element_render el).map elemBlockHtml

/-- The element types the renderer's chain recognizes. -/
def codeTypeBranches : List (List Char) :=
  ["section", "card", "button", "input", "image", "text", "header",
   "footer"].map String.data

/-- The fixed enumerated type set of the spec's data model (§3). -/
def specTypeEnum : List (List Char) :=
  codeTypeBranches ++ ["divider", "grid", "navbar", "label"].map String.data

/-- Sort key of the composer's `all_elements.sort(key=lambda el: el.get("y", 0))`:
the element's `y` value, absent treated as 0. A present non-numeric `y`
would make Python's comparison raise; the composer theorems below assume
numeric-or-absent `y`, as the schema provides. -/
def elY (el : Jv) : Int :=
  match elGet el ['y'] with
  | some (.num n) => n
  | _ => 0

/-- `el.get("height", 0)` under the same numeric reading. -/
def elH (el : Jv) : Int :=
  match elGet el "height".data with
  | some (.num n) => n
  | _ => 0

/-- Stable insertion of `a` into `l`: `a` goes before the first element
whose key is not below `a`'s, so earlier-listed elements keep priority at
equal keys. -/
def insStable {α : Type} (key : α → Int) (a : α) : List α → List α
  | [] => [a]
  | b :: bs => if key b < key a then b :: insStable key a bs else a :: b :: bs

/-- Stable sort by an integer key. Python's `list.sort` is a stable sort by
the key function; any stable sort produces the same output, and this
insertion sort is proved sorted, a permutation, and stable below. -/
def stableSort {α : Type} (key : α → Int) : List α → List α
  | [] => []
  | x :: xs => insStable key x (stableSort key xs)

/-- app.py lines 219-220: `all_elements = global_header + layout +
global_footer` followed by the stable in-place sort keyed on `y`. -/
def all_elements (gh layout gf : List Jv) : List Jv :=
  stableSort elY (gh ++ layout ++ gf)

/-- app.py lines 217-224: the loop's running maximum of `y + height` over
the composed elements, started at 0. -/
def current_max_y (els : List Jv) : Int :=
  els.foldl (fun m el => max m (elY el + elH el)) 0

/-- app.py line 228: the page container's `min-height` value,
`current_max_y + 120`, computed over the composed (sorted) sequence. -/
def page_min_height (gh layout gf : List Jv) : Int :=
  current_max_y (all_elements gh layout gf) + 120

/-- app.py lines 208-210: page id and title with positional defaults
(`page.get("pageId", f"page-{i}")`, `page.get("pageTitle", f"Page {i+1}")`),
a present non-string value being stringified by the f-string. -/
def pidOf (i : Nat) (p : Jv) : List Char :=
  match elGet p "pageId".data with
  | some v => pyStr v
  | none => "page-".data ++ natToDec i

/-- Page title with its positional default. -/
def ptitleOf (i : Nat) (p : Jv) : List Char :=
  match elGet p "pageTitle".data with
  | some v => pyStr v
  | none => "Page ".data ++ natToDec (i + 1)

/-- One navigation tab button: the page id its `onclick` is bound to, its
label text, and whether it carries the `active` class. -/
structure TabBtn where
  bound : List Char
  label : List Char
  active : Bool
  deriving DecidableEq

/-- One page container div: its DOM id and whether `display` is `block`. -/
structure PBox where
  pid : List Char
  shown : Bool
  deriving DecidableEq

/-- app.py line 212: the tab row built in the page loop, first page marked
active. -/
def page_tabs (ps : List Jv) : List TabBtn :=
  ps.enum.map (fun ip => ⟨pidOf ip.1 ip.2, ptitleOf ip.1 ip.2, decide (ip.1 = 0)⟩)

/-- app.py lines 226-231: the page containers, first page displayed. -/
def page_boxes (ps : List Jv) : List PBox :=
  ps.enum.map (fun ip => ⟨pidOf ip.1 ip.2, decide (ip.1 = 0)⟩)

/-- The display state of the assembled document: the desktop and mobile
copies of the page containers and the tab buttons of both tab bars (the
generated HTML embeds `page_tabs` and `page_contents` once under
`#desktop-view` and once under `#mobile-view`). -/
structure DocState where
  dpages : List PBox
  mpages : List PBox
  tabs : List TabBtn
  deriving DecidableEq

/-- The document as `generate_multi_page_html` emits it. -/
def assembleDoc (ps : List Jv) : DocState :=
  ⟨page_boxes ps, page_boxes ps, page_tabs ps ++ page_tabs ps⟩

/-- `querySelectorAll('.page-container').forEach(p => display = 'none')`. -/
def hideAll (l : List PBox) : List PBox := l.map (fun p => ⟨p.pid, false⟩)

/-- `querySelector('#' + id)` then `display = 'block'`: the first container
with the id, if any, becomes visible. -/
def showFirst (id : List Char) : List PBox → List PBox
  | [] => []
  | p :: ps => if p.pid = id then ⟨p.pid, true⟩ :: ps else p :: showFirst id ps

/-- Deactivate every tab button, then activate exactly those whose bound
`onclick` attribute matches `showPage('id')` (string equality of the
attribute is equality of the bound ids). -/
def setActive (id : List Char) (ts : List TabBtn) : List TabBtn :=
  ts.map (fun t => ⟨t.bound, t.label, decide (t.bound = id)⟩)

/-- app.py lines 415-429, the `showPage(id)` script: hide all desktop
containers and show the first match, same for mobile, then recompute the
tab `active` classes. -/
def showPage (id : List Char) (s : DocState) : DocState :=
  ⟨showFirst id (hideAll s.dpages), showFirst id (hideAll s.mpages),
   setActive id s.tabs⟩

/-- Page ids of the assembled document. -/
def docPids (s : DocState) : List (List Char) := s.dpages.map (·.pid)

theorem char_eq_of_toNat {c d : Char} (h : c.toNat = d.toNat) : c = d :=
  Char.eq_of_val_eq (UInt32.ext h)

theorem char_toNat_ofNat_valid (n : Nat) (h : n < 0xd800) :
    (Char.ofNat n).toNat = n := by
  have hv : n.isValidChar := Or.inl h
  simp [Char.ofNat, hv, Char.ofNatAux, Char.toNat, UInt32.toNat, UInt32.ofNat',
    BitVec.toNat_ofNat]

theorem char_valid_ranges (c : Char) :
    c.toNat < 0xd800 ∨ (0xe000 ≤ c.toNat ∧ c.toNat < 0x110000) := by
  have := c.valid
  simpa [UInt32.isValidChar, Nat.isValidChar, Char.toNat] using this

theorem digitChar_toNat (d : Nat) (h : d < 10) : (digitChar d).toNat = 48 + d :=
  char_toNat_ofNat_valid _ (by omega)

theorem digitChar_isDigit (d : Nat) (h : d < 10) : (digitChar d).isDigit = true := by
  interval_cases d <;> decide

theorem digitVal_digitChar (d : Nat) (h : d < 10) : digitVal (digitChar d) = d := by
  simp [digitVal, digitChar_toNat d h]

theorem natDigsGo_zero (f : Nat) : natDigsGo f 0 = [] := by
  cases f <;> simp [natDigsGo]

theorem natDigsGo_ne_nil (f n : Nat) (h1 : 1 ≤ n) (h2 : n ≤ f) :
    natDigsGo f n ≠ [] := by
  cases f with
  | zero => omega
  | succ f => simp [natDigsGo, show ¬ n = 0 by omega]

theorem natDigsGo_digits (f : Nat) :
    ∀ n c, c ∈ natDigsGo f n → c.isDigit = true := by
  induction f with
  | zero => simp [natDigsGo]
  | succ f ih =>
    intro n c hc
    by_cases h : n = 0
    · simp [natDigsGo, h] at hc
    · simp only [natDigsGo, if_neg h, List.mem_append, List.mem_singleton] at hc
      rcases hc with hc | hc
      · exact ih _ _ hc
      · subst hc; exact digitChar_isDigit _ (Nat.mod_lt _ (by omega))

theorem natDigsGo_head_ne_zero (f : Nat) :
    ∀ n c cs, 1 ≤ n → n ≤ f → natDigsGo f n = c :: cs → c ≠ '0' := by
  induction f with
  | zero => intro n c cs h1 h2 _; omega
  | succ f ih =>
    intro n c cs h1 h2 heq hc
    rw [natDigsGo, if_neg (by omega : ¬ n = 0)] at heq
    by_cases hsmall : n / 10 = 0
    · rw [hsmall, natDigsGo_zero] at heq
      simp only [List.nil_append, List.cons.injEq] at heq
      have hdc : digitChar (n % 10) = '0' := heq.1.trans hc
      have h48 := congrArg Char.toNat hdc
      rw [digitChar_toNat _ (Nat.mod_lt _ (by omega))] at h48
      have hmod : n % 10 = n := Nat.mod_eq_of_lt (by omega)
      rw [hmod, show ('0' : Char).toNat = 48 from rfl] at h48
      omega
    · obtain ⟨c', cs', hcc⟩ :=
        List.exists_cons_of_ne_nil (natDigsGo_ne_nil f (n / 10) (by omega) (by omega))
      rw [hcc] at heq
      simp only [List.cons_append, List.cons.injEq] at heq
      exact ih (n / 10) c' cs' (by omega) (by omega) hcc (heq.1 ▸ hc)

theorem foldl_natDigsGo (f : Nat) :
    ∀ n a, n ≤ f →
      List.foldl (fun acc c => 10 * acc + digitVal c) a (natDigsGo f n) =
        a * 10 ^ (natDigsGo f n).length + n := by
  induction f with
  | zero => intro n a h; simp [natDigsGo]; omega
  | succ f ih =>
    intro n a h
    by_cases h0 : n = 0
    · simp [natDigsGo, h0]
    · have hstep : natDigsGo (f + 1) n =
          natDigsGo f (n / 10) ++ [digitChar (n % 10)] := by
        rw [natDigsGo, if_neg h0]
      rw [hstep, List.foldl_append, ih (n / 10) a (by omega), List.length_append]
      simp only [List.foldl_cons, List.foldl_nil, List.length_singleton]
      rw [digitVal_digitChar _ (Nat.mod_lt _ (by omega)), pow_succ]
      have := Nat.div_add_mod n 10
      ring_nf
      omega

theorem digsVal_natDigsGo (f n : Nat) (h : n ≤ f) : digsVal (natDigsGo f n) = n := by
  simpa [digsVal] using foldl_natDigsGo f n 0 h

/-- The head of the remaining input is not a digit (the number scanner's
maximal-munch boundary). -/
def ndhB : List Char → Bool
  | [] => true
  | c :: _ => !c.isDigit

theorem spanDigits_split (ds rest : List Char)
    (hd : ∀ c ∈ ds, c.isDigit = true) (hr : ndhB rest = true) :
    spanDigits (ds ++ rest) = (ds, rest) := by
  induction ds with
  | nil =>
    cases rest with
    | nil => rfl
    | cons c cs =>
      simp only [ndhB, Bool.not_eq_true'] at hr
      simp [spanDigits, hr]
  | cons d ds ih =>
    have hd' : d.isDigit = true := hd d (by simp)
    simp only [List.cons_append, spanDigits, hd', if_true, List.append_eq]
    rw [ih (fun c hc => hd c (by simp [hc]))]

theorem parseNatNum_dec (n : Nat) (rest : List Char) (hr : ndhB rest = true) :
    parseNatNum (natToDec n ++ rest) = some (n, rest) := by
  by_cases h0 : n = 0
  · subst h0
    cases rest with
    | nil => rfl
    | cons c cs =>
      simp only [ndhB, Bool.not_eq_true'] at hr
      simp [natToDec, parseNatNum, hr]
  · obtain ⟨c, cs, hcc⟩ :=
      List.exists_cons_of_ne_nil (natDigsGo_ne_nil n n (by omega) le_rfl)
    have hdig : ∀ x ∈ natDigsGo n n, x.isDigit = true := fun x hx =>
      natDigsGo_digits n n x hx
    have hc0 : c ≠ '0' := natDigsGo_head_ne_zero n n c cs (by omega) le_rfl hcc
    rw [natToDec, if_neg h0, hcc]
    rw [parseNatNum.eq_def]
    split
    · next heq =>
      exfalso
      simp only [List.cons_append, List.cons.injEq] at heq
      obtain ⟨h1, _⟩ := heq
      subst h1
      exact hc0 rfl
    · next h2 =>
      have hspan : spanDigits ((c :: cs) ++ rest) = (c :: cs, rest) := by
        rw [← hcc]; exact spanDigits_split _ _ hdig hr
      simp only [List.cons_append] at hspan ⊢
      rw [hspan]
      have hne : ¬ (c :: cs).isEmpty = true := by simp
      simp only [hne, if_neg]
      rw [← hcc, digsVal_natDigsGo n n le_rfl]
      simp

theorem parseIntNum_dec (n : Int) (rest : List Char) (hr : ndhB rest = true) :
    parseIntNum (intToDec n ++ rest) = some (n, rest) := by
  cases n with
  | ofNat m =>
    rw [intToDec, parseIntNum.eq_def]
    split
    · next heq =>
      exfalso
      by_cases h0 : m = 0
      · subst h0; simp [natToDec] at heq
      · obtain ⟨c, cs, hcc⟩ :=
          List.exists_cons_of_ne_nil (natDigsGo_ne_nil m m (by omega) le_rfl)
        have hdig := natDigsGo_digits m m c (by rw [hcc]; simp)
        rw [natToDec, if_neg h0, hcc] at heq
        simp only [List.cons_append, List.cons.injEq] at heq
        have hcm : c = '-' := heq.1
        rw [hcm] at hdig
        exact absurd hdig (by decide)
    · rw [parseNatNum_dec m rest hr]; rfl
  | negSucc m =>
    have hsp : intToDec (Int.negSucc m) ++ rest = '-' :: (natToDec (m + 1) ++ rest) := by
      simp [intToDec]
    rw [hsp, parseIntNum, parseNatNum_dec (m + 1) rest hr]
    simp [Int.negSucc_eq]

theorem hexVal_hexDigitChar : ∀ d, d < 16 → hexVal (hexDigitChar d) = d := by decide

theorem isHexDig_hexDigitChar : ∀ d, d < 16 → isHexDig (hexDigitChar d) = true := by
  decide

theorem hex4_val (n : Nat) (h : n < 0x10000) :
    ((hexVal (hexDigitChar (n / 4096 % 16)) * 16 +
      hexVal (hexDigitChar (n / 256 % 16))) * 16 +
      hexVal (hexDigitChar (n / 16 % 16))) * 16 +
      hexVal (hexDigitChar (n % 16)) = n := by
  rw [hexVal_hexDigitChar _ (by omega), hexVal_hexDigitChar _ (by omega),
    hexVal_hexDigitChar _ (by omega), hexVal_hexDigitChar _ (by omega)]
  omega


theorem parseStr_quote (r : List Char) : parseStr ('"' :: r) = some ([], r) := by
  rw [parseStr]; simp

theorem parseStr_bs (r : List Char) : parseStr ('\\' :: r) = parseEsc r := by
  rw [parseStr]; simp

theorem parseStr_plain (c : Char) (r : List Char) (h1 : c ≠ '"') (h2 : c ≠ '\\')
    (h3 : ¬ c.toNat < 0x20) :
    parseStr (c :: r) = (parseStr r).map (fun p => (c :: p.1, p.2)) := by
  rw [parseStr]; simp [h1, h2, h3]

theorem parseEsc_u (r : List Char) : parseEsc ('u' :: r) = parseU4 r := by
  rw [parseEsc]; simp

theorem parseEsc_q (r : List Char) :
    parseEsc ('"' :: r) = (parseStr r).map (fun p => ('"' :: p.1, p.2)) := by
  rw [parseEsc]; simp

theorem parseEsc_bs (r : List Char) :
    parseEsc ('\\' :: r) = (parseStr r).map (fun p => ('\\' :: p.1, p.2)) := by
  rw [parseEsc]; simp

theorem parseEsc_n (r : List Char) :
    parseEsc ('n' :: r) = (parseStr r).map (fun p => ('\n' :: p.1, p.2)) := by
  rw [parseEsc]; simp

theorem parseEsc_r (r : List Char) :
    parseEsc ('r' :: r) = (parseStr r).map (fun p => ('\r' :: p.1, p.2)) := by
  rw [parseEsc]; simp

theorem parseEsc_t (r : List Char) :
    parseEsc ('t' :: r) = (parseStr r).map (fun p => ('\t' :: p.1, p.2)) := by
  rw [parseEsc]; simp

theorem parseEsc_b (r : List Char) :
    parseEsc ('b' :: r) = (parseStr r).map (fun p => ('\x08' :: p.1, p.2)) := by
  rw [parseEsc]; simp

theorem parseEsc_f (r : List Char) :
    parseEsc ('f' :: r) = (parseStr r).map (fun p => ('\x0c' :: p.1, p.2)) := by
  rw [parseEsc]; simp

theorem parseStr_escStr : ∀ cs rest, parseStr (escStr cs ++ '"' :: rest) = some (cs, rest) := by
  intro cs
  induction cs with
  | nil => intro rest; exact parseStr_quote rest
  | cons c cs ih =>
    intro rest
    show parseStr ((escChar c ++ escStr cs) ++ '"' :: rest) = _
    rw [List.append_assoc]
    by_cases h1 : c = '"'
    · subst h1
      rw [show escChar '"' = ['\\', '"'] from rfl]
      simp only [List.cons_append, List.nil_append]
      rw [parseStr_bs, parseEsc_q, ih]
      rfl
    by_cases h2 : c = '\\'
    · subst h2
      rw [show escChar '\\' = ['\\', '\\'] from rfl]
      simp only [List.cons_append, List.nil_append]
      rw [parseStr_bs, parseEsc_bs, ih]
      rfl
    by_cases h3 : c = '\n'
    · subst h3
      rw [show escChar '\n' = ['\\', 'n'] from rfl]
      simp only [List.cons_append, List.nil_append]
      rw [parseStr_bs, parseEsc_n, ih]
      rfl
    by_cases h4 : c = '\r'
    · subst h4
      rw [show escChar '\r' = ['\\', 'r'] from rfl]
      simp only [List.cons_append, List.nil_append]
      rw [parseStr_bs, parseEsc_r, ih]
      rfl
    by_cases h5 : c = '\t'
    · subst h5
      rw [show escChar '\t' = ['\\', 't'] from rfl]
      simp only [List.cons_append, List.nil_append]
      rw [parseStr_bs, parseEsc_t, ih]
      rfl
    by_cases h6 : c = '\x08'
    · subst h6
      rw [show escChar '\x08' = ['\\', 'b'] from rfl]
      simp only [List.cons_append, List.nil_append]
      rw [parseStr_bs, parseEsc_b, ih]
      rfl
    by_cases h7 : c = '\x0c'
    · subst h7
      rw [show escChar '\x0c' = ['\\', 'f'] from rfl]
      simp only [List.cons_append, List.nil_append]
      rw [parseStr_bs, parseEsc_f, ih]
      rfl
    by_cases h8 : 0x20 ≤ c.toNat ∧ c.toNat < 0x7f
    · have hesc : escChar c = [c] := by
        simp [escChar, h1, h2, h3, h4, h5, h6, h7, h8.1, h8.2]
      rw [hesc]
      simp only [List.cons_append, List.nil_append]
      rw [parseStr_plain c _ h1 h2 (by omega), ih]
      rfl
    · have hcond : ¬ ((decide (0x20 ≤ c.toNat) && decide (c.toNat < 0x7f)) = true) := by
        simpa [Bool.and_eq_true, decide_eq_true_eq] using h8
      by_cases h9 : c.toNat < 0x10000
      · have hesc : escChar c = '\\' :: 'u' :: hex4 c.toNat := by
          rw [escChar, if_neg h1, if_neg h2, if_neg h3, if_neg h4, if_neg h5,
            if_neg h6, if_neg h7, if_neg hcond, if_pos h9]
        rw [hesc]
        simp only [hex4, List.cons_append, List.nil_append]
        rw [parseStr_bs, parseEsc_u, parseU4]
        rw [isHexDig_hexDigitChar _ (by omega), isHexDig_hexDigitChar _ (by omega),
          isHexDig_hexDigitChar _ (by omega), isHexDig_hexDigitChar _ (by omega)]
        simp only [Bool.and_self, if_true]
        rw [hex4_val _ h9]
        have hval : c.toNat < 0xd800 ∨ 0xe000 ≤ c.toNat := by
          rcases char_valid_ranges c with h | h
          · exact Or.inl h
          · exact Or.inr h.1
        rw [if_pos (by simpa [decide_eq_true_eq] using hval)]
        rw [ih, Char.ofNat_toNat]
        rfl
      · have hbig : 0xe000 ≤ c.toNat ∧ c.toNat < 0x110000 := by
          rcases char_valid_ranges c with h | h
          · omega
          · exact h
        have hesc : escChar c =
            ('\\' :: 'u' :: hex4 (0xd800 + (c.toNat - 0x10000) / 0x400)) ++
            ('\\' :: 'u' :: hex4 (0xdc00 + (c.toNat - 0x10000) % 0x400)) := by
          rw [escChar, if_neg h1, if_neg h2, if_neg h3, if_neg h4, if_neg h5,
            if_neg h6, if_neg h7, if_neg hcond, if_neg h9]
        rw [hesc]
        have hq : (c.toNat - 0x10000) / 0x400 < 0x400 := by omega
        have hhi : 0xd800 + (c.toNat - 0x10000) / 0x400 < 0x10000 := by omega
        have hlo : 0xdc00 + (c.toNat - 0x10000) % 0x400 < 0x10000 := by
          have := Nat.mod_lt (c.toNat - 0x10000) (show 0 < 0x400 by omega)
          omega
        simp only [hex4, List.cons_append, List.nil_append, List.append_assoc]
        rw [parseStr_bs, parseEsc_u, parseU4]
        rw [isHexDig_hexDigitChar _ (by omega), isHexDig_hexDigitChar _ (by omega),
          isHexDig_hexDigitChar _ (by omega), isHexDig_hexDigitChar _ (by omega)]
        simp only [Bool.and_self, if_true]
        rw [hex4_val _ hhi]
        rw [if_neg (by simp only [Bool.or_eq_true, decide_eq_true_eq]; push_neg; omega)]
        rw [if_pos (show 0xd800 + (c.toNat - 0x10000) / 0x400 < 0xdc00 by omega)]
        rw [parseLow]
        split
        · rw [hex4_val _ hlo]
          have hmod := Nat.mod_lt (c.toNat - 0x10000) (show 0 < 0x400 by omega)
          rw [if_pos (by simp only [Bool.and_eq_true, decide_eq_true_eq]; omega)]
          rw [ih]
          have harith : 0x10000 +
              (0xd800 + (c.toNat - 0x10000) / 0x400 - 0xd800) * 0x400 +
              (0xdc00 + (c.toNat - 0x10000) % 0x400 - 0xdc00) = c.toNat := by
            have := Nat.div_add_mod (c.toNat - 0x10000) 0x400
            omega
          rw [harith, Char.ofNat_toNat]
          rfl
        · next hneg =>
          exfalso
          apply hneg
          rw [isHexDig_hexDigitChar _ (by omega), isHexDig_hexDigitChar _ (by omega),
            isHexDig_hexDigitChar _ (by omega), isHexDig_hexDigitChar _ (by omega)]
          simp

theorem skipWs_cons_not (c : Char) (r : List Char) (h : isJWs c = false) :
    skipWs (c :: r) = c :: r := by
  simp [skipWs, List.dropWhile_cons, h]

theorem skipWs_replicate_sp (k : Nat) (s : List Char) :
    skipWs (List.replicate k ' ' ++ s) = skipWs s := by
  induction k with
  | zero => simp
  | succ k ih =>
    rw [List.replicate_succ, List.cons_append, skipWs, List.dropWhile_cons]
    simp only [isJWs, ite_true, decide_True, Bool.true_or]
    rw [← skipWs, ih]

theorem skipWs_nl_ind (L : Nat) (s : List Char) :
    skipWs ('\n' :: (indC L ++ s)) = skipWs s := by
  have h1 : skipWs ('\n' :: (indC L ++ s)) = skipWs (indC L ++ s) := by
    simp [skipWs, List.dropWhile_cons, isJWs]
  rw [h1, indC, skipWs_replicate_sp]

theorem ne_of_isDigit_ne (c d : Char) (h : c.isDigit = true) (hd : d.isDigit = false) :
    c ≠ d := fun he => absurd (he ▸ h) (by simp [hd])

theorem isJWs_of_isDigit (c : Char) (h : c.isDigit = true) : isJWs c = false := by
  have h1 := ne_of_isDigit_ne c ' ' h (by decide)
  have h2 := ne_of_isDigit_ne c '\t' h (by decide)
  have h3 := ne_of_isDigit_ne c '\n' h (by decide)
  have h4 := ne_of_isDigit_ne c '\r' h (by decide)
  simp [isJWs, h1, h2, h3, h4]

theorem intToDec_head (n : Int) :
    ∃ c cs, intToDec n = c :: cs ∧ isJWs c = false ∧ c ≠ ']' ∧ c ≠ '\x7d' ∧
      c ≠ '\x7b' ∧ c ≠ '[' ∧ c ≠ '"' ∧ c ≠ 'n' ∧ c ≠ 't' ∧ c ≠ 'f' := by
  have key : ∀ m : Nat, ∃ c cs, natToDec m = c :: cs ∧ c.isDigit = true := by
    intro m
    by_cases h0 : m = 0
    · exact ⟨'0', [], by simp [natToDec, h0], by decide⟩
    · obtain ⟨c, cs, hcc⟩ :=
        List.exists_cons_of_ne_nil (natDigsGo_ne_nil m m (by omega) le_rfl)
      exact ⟨c, cs, by rw [natToDec, if_neg h0, hcc],
        natDigsGo_digits m m c (by rw [hcc]; simp)⟩
  cases n with
  | ofNat m =>
    obtain ⟨c, cs, hcc, hdig⟩ := key m
    refine ⟨c, cs, by rw [intToDec, hcc], isJWs_of_isDigit c hdig, ?_, ?_, ?_, ?_, ?_, ?_, ?_, ?_⟩ <;>
      exact ne_of_isDigit_ne c _ hdig (by decide)
  | negSucc m =>
    exact ⟨'-', natToDec (m + 1), rfl, by decide, by decide, by decide, by decide,
      by decide, by decide, by decide, by decide, by decide⟩

theorem dumpV_head (L : Nat) (v : Jv) :
    ∃ c cs, dumpV L v = c :: cs ∧ isJWs c = false ∧ c ≠ ']' ∧ c ≠ '\x7d' := by
  cases v with
  | null => refine ⟨'n', _, rfl, ?_⟩ ; decide
  | bool b =>
    cases b with
    | true => refine ⟨'t', _, rfl, ?_⟩ ; decide
    | false => refine ⟨'f', _, rfl, ?_⟩ ; decide
  | num n =>
    obtain ⟨c, cs, hcc, hws, h1, h2, _⟩ := intToDec_head n
    exact ⟨c, cs, by rw [dumpV, hcc], hws, h1, h2⟩
  | str s => refine ⟨'"', _, rfl, ?_⟩ ; decide
  | arr xs =>
    cases xs with
    | nil => refine ⟨'[', _, rfl, ?_⟩ ; decide
    | cons x xs => refine ⟨'[', _, rfl, ?_⟩ ; decide
  | obj kvs =>
    cases kvs with
    | nil => refine ⟨'\x7b', _, rfl, ?_⟩ ; decide
    | cons kv tl =>
      obtain ⟨k, v⟩ := kv
      refine ⟨'\x7b', _, rfl, ?_⟩ ; decide

theorem skipWs_dumpV (L : Nat) (v : Jv) (rest : List Char) :
    skipWs (dumpV L v ++ rest) = dumpV L v ++ rest := by
  obtain ⟨c, cs, h, hws, _, _⟩ := dumpV_head L v
  rw [h, List.cons_append, skipWs_cons_not _ _ hws]

mutual
/-- Fuel bound sufficient for the parser on a serialized value. -/
def FV : Jv → Nat
  | .null => 1
  | .bool _ => 1
  | .num _ => 1
  | .str _ => 1
  | .arr xs => 2 + FL xs
  | .obj kvs => 2 + FO kvs

/-- Fuel bound for the item loop over remaining array elements. -/
def FL : List Jv → Nat
  | [] => 0
  | x :: xs => 1 + FV x + FL xs

/-- Fuel bound for the member loop over remaining object entries. -/
def FO : List (List Char × Jv) → Nat
  | [] => 0
  | (_, v) :: tl => 1 + FV v + FO tl
end

theorem FV_pos (v : Jv) : 1 ≤ FV v := by
  cases v <;> simp [FV] <;> omega

theorem wfL_mem {xs : List Jv} (h : wfL xs = true) {x : Jv} (hx : x ∈ xs) :
    wfV x = true := by
  induction xs with
  | nil => cases hx
  | cons y ys ih =>
    rw [wfL, Bool.and_eq_true] at h
    rcases hx with _ | hx
    · exact h.1
    · exact ih h.2 (by assumption)

theorem addKey_fresh (acc : List (List Char × Jv)) (k : List Char) (v : Jv)
    (h : k ∉ jKeys acc) : addKey acc k v = acc ++ [(k, v)] := by
  rw [addKey, if_neg h]

theorem parseVal_brace (f : Nat) (r : List Char) :
    parseVal (f + 1) ('\x7b' :: r) = parseObjBody f (skipWs r) := by
  rw [parseVal]; simp

theorem parseVal_brack (f : Nat) (r : List Char) :
    parseVal (f + 1) ('[' :: r) = parseArrBody f (skipWs r) := by
  rw [parseVal]; simp

theorem parseVal_strq (f : Nat) (r : List Char) :
    parseVal (f + 1) ('"' :: r) = (parseStr r).map (fun p => (Jv.str p.1, p.2)) := by
  rw [parseVal]; simp

theorem parseVal_n (f : Nat) (r : List Char) :
    parseVal (f + 1) ('n' :: r) =
      if leadsWith ['u', 'l', 'l'] r then some (Jv.null, r.drop 3) else none := by
  rw [parseVal]; simp

theorem parseVal_t (f : Nat) (r : List Char) :
    parseVal (f + 1) ('t' :: r) =
      if leadsWith ['r', 'u', 'e'] r then some (Jv.bool true, r.drop 3) else none := by
  rw [parseVal]; simp

theorem parseVal_f (f : Nat) (r : List Char) :
    parseVal (f + 1) ('f' :: r) =
      if leadsWith ['a', 'l', 's', 'e'] r then some (Jv.bool false, r.drop 4)
      else none := by
  rw [parseVal]; simp

theorem parseVal_other (f : Nat) (c : Char) (r : List Char) (h1 : c ≠ '\x7b')
    (h2 : c ≠ '[') (h3 : c ≠ '"') (h4 : c ≠ 'n') (h5 : c ≠ 't') (h6 : c ≠ 'f') :
    parseVal (f + 1) (c :: r) =
      (parseIntNum (c :: r)).map (fun p => (Jv.num p.1, p.2)) := by
  rw [parseVal]; simp [h1, h2, h3, h4, h5, h6]

theorem parseObjBody_close (f : Nat) (r : List Char) :
    parseObjBody (f + 1) ('\x7d' :: r) = some (Jv.obj [], r) := by
  rw [parseObjBody]; simp

theorem parseObjBody_go (f : Nat) (c : Char) (r : List Char) (h : c ≠ '\x7d') :
    parseObjBody (f + 1) (c :: r) = parseMembers f [] (c :: r) := by
  rw [parseObjBody]; simp [h]

theorem parseArrBody_close (f : Nat) (r : List Char) :
    parseArrBody (f + 1) (']' :: r) = some (Jv.arr [], r) := by
  rw [parseArrBody]; simp

theorem parseArrBody_go (f : Nat) (c : Char) (r : List Char) (h : c ≠ ']') :
    parseArrBody (f + 1) (c :: r) = parseItems f [] (c :: r) := by
  rw [parseArrBody]; simp [h]

theorem skipWs_sp (s : List Char) : skipWs (' ' :: s) = skipWs s := by
  simp [skipWs, List.dropWhile_cons, isJWs]

theorem Jv_sizeOf_pos (v : Jv) : 1 ≤ sizeOf v := by
  cases v <;> simp_arith

theorem ndhB_cons (c : Char) (r : List Char) : ndhB (c :: r) = !c.isDigit := rfl

theorem parseItems_dumpTl (N : Nat)
    (hIH : ∀ v, sizeOf v ≤ N → wfV v = true →
      ∀ fuel L rest, FV v ≤ fuel → ndhB rest = true →
        parseVal fuel (dumpV L v ++ rest) = some (v, rest)) :
    ∀ (l : List Jv) (x : Jv) (acc : List Jv) (g M Lc : Nat) (R : List Char),
      sizeOf x ≤ N → wfV x = true → (∀ y ∈ l, sizeOf y ≤ N) → wfL l = true →
      1 + FV x + FL l ≤ g → ndhB R = true →
      parseItems g acc
          (dumpV M x ++ (dumpArrTl M l ++ ('\n' :: (indC Lc ++ (']' :: R))))) =
        some (Jv.arr (acc ++ x :: l), R) := by
  intro l
  induction l with
  | nil =>
    intro x acc g M Lc R hxsz hxwf _ _ hg hR
    obtain ⟨g, rfl⟩ : ∃ g', g = g' + 1 := ⟨g - 1, by have := FV_pos x; omega⟩
    rw [parseItems, show dumpArrTl M [] = [] from rfl, List.nil_append]
    rw [hIH x hxsz hxwf g M ('\n' :: (indC Lc ++ (']' :: R))) (by omega)
      (by rw [ndhB_cons]; decide)]
    simp only [skipWs_nl_ind, skipWs_cons_not _ _ (show isJWs ']' = false by decide)]
  | cons y l' ihl =>
    intro x acc g M Lc R hxsz hxwf hmem hwl hg hR
    obtain ⟨g, rfl⟩ : ∃ g', g = g' + 1 := ⟨g - 1, by have := FV_pos x; omega⟩
    have hy_sz : sizeOf y ≤ N := hmem y (by simp)
    rw [wfL, Bool.and_eq_true] at hwl
    rw [parseItems,
      show dumpArrTl M (y :: l') =
        ',' :: '\n' :: (indC M ++ dumpV M y ++ dumpArrTl M l') from rfl]
    simp only [List.cons_append, List.append_assoc]
    rw [hIH x hxsz hxwf g M
      (',' :: '\n' :: (indC M ++ (dumpV M y ++ (dumpArrTl M l' ++
        ('\n' :: (indC Lc ++ (']' :: R))))))) (by omega)
      (by rw [ndhB_cons]; decide)]
    simp only [skipWs_cons_not _ _ (show isJWs ',' = false by decide)]
    simp only [skipWs_nl_ind, skipWs_dumpV]
    rw [ihl y (acc ++ [x]) g M Lc R hy_sz hwl.1
      (fun z hz => hmem z (by simp [hz])) hwl.2
      (by have := FV_pos x; simp only [FL] at hg ⊢; omega) hR]
    simp

theorem parseMembers_dumpTl (N : Nat)
    (hIH : ∀ v, sizeOf v ≤ N → wfV v = true →
      ∀ fuel L rest, FV v ≤ fuel → ndhB rest = true →
        parseVal fuel (dumpV L v ++ rest) = some (v, rest)) :
    ∀ (tl : List (List Char × Jv)) (k : List Char) (v : Jv)
      (acc : List (List Char × Jv)) (g M Lc : Nat) (R : List Char),
      sizeOf v ≤ N → wfV v = true →
      (∀ p ∈ tl, sizeOf p.2 ≤ N) → wfO tl = true →
      (jKeys acc ++ (k :: jKeys tl)).Nodup →
      1 + FV v + FO tl ≤ g → ndhB R = true →
      parseMembers g acc
          ('"' :: (escStr k ++ ('"' :: (':' :: (' ' :: (dumpV M v ++
            (dumpObjTl M tl ++ ('\n' :: (indC Lc ++ ('\x7d' :: R)))))))))) =
        some (Jv.obj (acc ++ (k, v) :: tl), R) := by
  intro tl
  induction tl with
  | nil =>
    intro k v acc g M Lc R hvsz hvwf _ _ hnd hg hR
    obtain ⟨g, rfl⟩ : ∃ g', g = g' + 1 := ⟨g - 1, by have := FV_pos v; omega⟩
    have hkfresh : k ∉ jKeys acc := by
      have hd := (List.nodup_append.mp hnd).2.2
      intro hk
      exact hd hk (by simp)
    rw [parseMembers, parseStr_escStr]
    simp only [skipWs_cons_not _ _ (show isJWs ':' = false by decide), skipWs_sp,
      skipWs_dumpV]
    rw [show dumpObjTl M ([] : List (List Char × Jv)) = [] from rfl, List.nil_append]
    rw [hIH v hvsz hvwf g M ('\n' :: (indC Lc ++ '\x7d' :: R)) (by omega)
      (by rw [ndhB_cons]; decide)]
    simp only [skipWs_nl_ind, skipWs_cons_not _ _ (show isJWs '\x7d' = false by decide)]
    rw [addKey_fresh _ _ _ hkfresh]
  | cons p tl' ihm =>
    obtain ⟨k2, v2⟩ := p
    intro k v acc g M Lc R hvsz hvwf hmem hwo hnd hg hR
    obtain ⟨g, rfl⟩ : ∃ g', g = g' + 1 := ⟨g - 1, by have := FV_pos v; omega⟩
    have hkfresh : k ∉ jKeys acc := by
      have hd := (List.nodup_append.mp hnd).2.2
      intro hk
      exact hd hk (by simp)
    rw [wfO, Bool.and_eq_true] at hwo
    rw [parseMembers, parseStr_escStr]
    simp only [skipWs_cons_not _ _ (show isJWs ':' = false by decide), skipWs_sp,
      skipWs_dumpV]
    rw [show dumpObjTl M ((k2, v2) :: tl') =
      ',' :: '\n' :: (indC M ++ dumpStr k2 ++ ':' :: ' ' ::
        (dumpV M v2 ++ dumpObjTl M tl')) from rfl]
    simp only [dumpStr, List.cons_append, List.append_assoc, List.nil_append,
      List.singleton_append]
    rw [hIH v hvsz hvwf g M
      (',' :: '\n' :: (indC M ++ '"' :: (escStr k2 ++ '"' :: ':' :: ' ' ::
        (dumpV M v2 ++ (dumpObjTl M tl' ++ '\n' :: (indC Lc ++ '\x7d' :: R))))))
      (by omega) (by rw [ndhB_cons]; decide)]
    simp only [skipWs_cons_not _ _ (show isJWs ',' = false by decide)]
    simp only [skipWs_nl_ind, skipWs_cons_not _ _ (show isJWs '"' = false by decide)]
    rw [addKey_fresh _ _ _ hkfresh]
    rw [ihm k2 v2 (acc ++ [(k, v)]) g M Lc R (hmem (k2, v2) (by simp)) hwo.1
      (fun q hq => hmem q (by simp [hq])) hwo.2
      (by simpa [jKeys, List.append_assoc] using hnd)
      (by have := FV_pos v; simp only [FO] at hg ⊢; omega) hR]
    simp

theorem parseVal_dumpV :
    ∀ N v, sizeOf v ≤ N → wfV v = true →
      ∀ fuel L rest, FV v ≤ fuel → ndhB rest = true →
        parseVal fuel (dumpV L v ++ rest) = some (v, rest) := by
  intro N
  induction N with
  | zero => intro v hsz; exact absurd hsz (by have := Jv_sizeOf_pos v; omega)
  | succ N ih =>
    intro v hsz hwf fuel L rest hfv hrest
    obtain ⟨f, rfl⟩ : ∃ f, fuel = f + 1 := ⟨fuel - 1, by have := FV_pos v; omega⟩
    cases v with
    | null =>
      rw [show dumpV L Jv.null ++ rest = 'n' :: ('u' :: 'l' :: 'l' :: rest) from rfl]
      rw [parseVal_n]
      simp [leadsWith]
    | bool b =>
      cases b with
      | true =>
        rw [show dumpV L (Jv.bool true) ++ rest = 't' :: ('r' :: 'u' :: 'e' :: rest) from rfl]
        rw [parseVal_t]
        simp [leadsWith]
      | false =>
        rw [show dumpV L (Jv.bool false) ++ rest = 'f' :: ('a' :: 'l' :: 's' :: 'e' :: rest) from rfl]
        rw [parseVal_f]
        simp [leadsWith]
    | num n =>
      obtain ⟨c, cs, hcc, _, _, _, h7b, h7c, h7d, h7n, h7t, h7f⟩ := intToDec_head n
      rw [show dumpV L (Jv.num n) = intToDec n from rfl, hcc, List.cons_append]
      rw [parseVal_other f c (cs ++ rest) h7b h7c h7d h7n h7t h7f]
      rw [← List.cons_append, ← hcc, parseIntNum_dec n rest hrest]
      rfl
    | str s =>
      rw [show dumpV L (Jv.str s) ++ rest = '"' :: (escStr s ++ '"' :: rest) by
        simp [dumpV, dumpStr]]
      rw [parseVal_strq, parseStr_escStr]
      rfl
    | arr xs =>
      cases xs with
      | nil =>
        rw [show dumpV L (Jv.arr []) ++ rest = '[' :: (']' :: rest) from rfl]
        rw [parseVal_brack, skipWs_cons_not _ _ (by decide)]
        obtain ⟨f', rfl⟩ : ∃ f', f = f' + 1 :=
          ⟨f - 1, by simp only [FV, FL] at hfv; omega⟩
        rw [parseArrBody_close]
      | cons x xs =>
        have hwl : wfL (x :: xs) = true := by rwa [wfV] at hwf
        rw [wfL, Bool.and_eq_true] at hwl
        have hszx : sizeOf x ≤ N := by
          have h1 := List.sizeOf_lt_of_mem (List.mem_cons_self x xs)
          simp only [Jv.arr.sizeOf_spec] at hsz
          omega
        have hszxs : ∀ y ∈ xs, sizeOf y ≤ N := by
          intro y hy
          have h1 := List.sizeOf_lt_of_mem (List.mem_cons_of_mem x hy)
          simp only [Jv.arr.sizeOf_spec] at hsz
          omega
        simp only [FV, FL] at hfv
        obtain ⟨f', rfl⟩ : ∃ f', f = f' + 1 := ⟨f - 1, by have := FV_pos x; omega⟩
        rw [show dumpV L (Jv.arr (x :: xs)) =
          '[' :: '\n' :: (indC (L + 1) ++ dumpV (L + 1) x ++ dumpArrTl (L + 1) xs)
            ++ '\n' :: (indC L ++ [']']) from rfl]
        simp only [List.cons_append, List.append_assoc, List.nil_append,
          List.singleton_append]
        rw [parseVal_brack, skipWs_nl_ind, skipWs_dumpV]
        obtain ⟨c, cs, hcc, _, hc1, _⟩ := dumpV_head (L + 1) x
        rw [hcc, List.cons_append, parseArrBody_go _ _ _ hc1, ← List.cons_append,
          ← hcc]
        rw [parseItems_dumpTl N ih xs x [] f' (L + 1) L rest hszx hwl.1 hszxs hwl.2
          (by have := FV_pos x; omega) hrest]
        simp
    | obj kvs =>
      cases kvs with
      | nil =>
        rw [show dumpV L (Jv.obj []) ++ rest = '\x7b' :: ('\x7d' :: rest) from rfl]
        rw [parseVal_brace, skipWs_cons_not _ _ (by decide)]
        obtain ⟨f', rfl⟩ : ∃ f', f = f' + 1 :=
          ⟨f - 1, by simp only [FV, FO] at hfv; omega⟩
        rw [parseObjBody_close]
      | cons p tl =>
        obtain ⟨k, v⟩ := p
        rw [wfV, Bool.and_eq_true] at hwf
        have hnd : (jKeys ([] : List (List Char × Jv)) ++ (k :: jKeys tl)).Nodup := by
          have hthis := hwf.1
          simp only [decide_eq_true_eq] at hthis
          rw [show jKeys ([] : List (List Char × Jv)) = [] from rfl, List.nil_append]
          exact hthis
        have hwo := hwf.2
        rw [wfO, Bool.and_eq_true] at hwo
        have hszv : sizeOf v ≤ N := by
          have h1 := List.sizeOf_lt_of_mem (List.mem_cons_self (k, v) tl)
          simp only [Jv.obj.sizeOf_spec, Prod.mk.sizeOf_spec] at hsz h1
          omega
        have hsztl : ∀ q ∈ tl, sizeOf q.2 ≤ N := by
          intro q hq
          have h1 := List.sizeOf_lt_of_mem (List.mem_cons_of_mem (k, v) hq)
          have h2 : sizeOf q.2 < sizeOf q := by
            obtain ⟨a, b⟩ := q
            simp only [Prod.mk.sizeOf_spec]
            omega
          simp only [Jv.obj.sizeOf_spec] at hsz
          omega
        simp only [FV, FO] at hfv
        obtain ⟨f', rfl⟩ : ∃ f', f = f' + 1 := ⟨f - 1, by have := FV_pos v; omega⟩
        rw [show dumpV L (Jv.obj ((k, v) :: tl)) =
          '\x7b' :: '\n' :: (indC (L + 1) ++ dumpStr k ++ ':' :: ' ' ::
            (dumpV (L + 1) v ++ dumpObjTl (L + 1) tl))
            ++ '\n' :: (indC L ++ ['\x7d']) from rfl]
        simp only [dumpStr, List.cons_append, List.append_assoc, List.nil_append,
          List.singleton_append]
        rw [parseVal_brace, skipWs_nl_ind,
          skipWs_cons_not _ _ (show isJWs '"' = false by decide)]
        rw [parseObjBody_go _ _ _ (by decide : ('"' : Char) ≠ '\x7d')]
        rw [parseMembers_dumpTl N ih tl k v [] f' (L + 1) L rest hszv hwo.1 hsztl
          hwo.2 hnd (by have := FV_pos v; omega) hrest]
        simp

theorem FV_le_dump : ∀ N v, sizeOf v ≤ N → ∀ L, FV v ≤ 3 * (dumpV L v).length := by
  intro N
  induction N with
  | zero => intro v hsz; exact absurd hsz (by have := Jv_sizeOf_pos v; omega)
  | succ N ih =>
    intro v hsz L
    cases v with
    | null => simp [FV, dumpV]
    | bool b => cases b <;> simp [FV, dumpV]
    | num n =>
      obtain ⟨c, cs, hcc, _⟩ := intToDec_head n
      rw [show dumpV L (Jv.num n) = intToDec n from rfl, hcc]
      simp [FV]
      omega
    | str s => simp [FV, dumpV, dumpStr]; omega
    | arr xs =>
      have harr : ∀ (l : List Jv), (∀ y ∈ l, sizeOf y ≤ N) → ∀ M,
          FL l ≤ 3 * (dumpArrTl M l).length := by
        intro l
        induction l with
        | nil => simp [FL, dumpArrTl]
        | cons y l' ihl =>
          intro hm M
          have h1 := ih y (hm y (by simp)) M
          have h2 := ihl (fun z hz => hm z (by simp [hz])) M
          simp only [FL, dumpArrTl, List.length_cons, List.length_append]
          omega
      cases xs with
      | nil => simp [FV, FL, dumpV]
      | cons x xs =>
        have hszx : sizeOf x ≤ N := by
          have h1 := List.sizeOf_lt_of_mem (List.mem_cons_self x xs)
          simp only [Jv.arr.sizeOf_spec] at hsz
          omega
        have hszxs : ∀ y ∈ xs, sizeOf y ≤ N := by
          intro y hy
          have h1 := List.sizeOf_lt_of_mem (List.mem_cons_of_mem x hy)
          simp only [Jv.arr.sizeOf_spec] at hsz
          omega
        have h1 := ih x hszx (L + 1)
        have h2 := harr xs hszxs (L + 1)
        simp only [FV, FL, dumpV, List.length_cons, List.length_append,
          List.length_singleton]
        omega
    | obj kvs =>
      have hobj : ∀ (l : List (List Char × Jv)), (∀ q ∈ l, sizeOf q.2 ≤ N) → ∀ M,
          FO l ≤ 3 * (dumpObjTl M l).length := by
        intro l
        induction l with
        | nil => simp [FO, dumpObjTl]
        | cons q l' ihl =>
          obtain ⟨k2, v2⟩ := q
          intro hm M
          have h1 := ih v2 (hm (k2, v2) (by simp)) M
          have h2 := ihl (fun z hz => hm z (by simp [hz])) M
          simp only [FO, dumpObjTl, List.length_cons, List.length_append]
          omega
      cases kvs with
      | nil => simp [FV, FO, dumpV]
      | cons p tl =>
        obtain ⟨k, v⟩ := p
        have hszv : sizeOf v ≤ N := by
          have h1 := List.sizeOf_lt_of_mem (List.mem_cons_self (k, v) tl)
          simp only [Jv.obj.sizeOf_spec, Prod.mk.sizeOf_spec] at hsz h1
          omega
        have hsztl : ∀ q ∈ tl, sizeOf q.2 ≤ N := by
          intro q hq
          have h1 := List.sizeOf_lt_of_mem (List.mem_cons_of_mem (k, v) hq)
          have h2 : sizeOf q.2 < sizeOf q := by
            obtain ⟨a, b⟩ := q
            simp only [Prod.mk.sizeOf_spec]
            omega
          simp only [Jv.obj.sizeOf_spec] at hsz
          omega
        have h1 := ih v hszv (L + 1)
        have h2 := hobj tl hsztl (L + 1)
        simp only [FV, FO, dumpV, List.length_cons, List.length_append,
          List.length_singleton]
        omega

theorem json_loads_dumps (v : Jv) (hwf : wfV v = true) :
    json_loads (json_dumps v) = some v := by
  rw [json_loads, json_dumps]
  have hskip : skipWs (dumpV 0 v) = dumpV 0 v := by
    have h := skipWs_dumpV 0 v []
    simpa using h
  rw [hskip]
  have hp := parseVal_dumpV (sizeOf v) v le_rfl hwf (3 * (dumpV 0 v).length + 3) 0 []
    (by have := FV_le_dump (sizeOf v) v le_rfl 0; omega) (by rfl)
  rw [List.append_nil] at hp
  rw [hp]
  rfl

theorem closesFence_false (a : List Char) (t : List Char)
    (h : ∀ c ∈ a, c ≠ '`') : closesFence (a ++ '\x7d' :: t) = false := by
  induction a with
  | nil =>
    rw [List.nil_append, closesFence]
    rw [List.dropWhile_cons_of_neg (by decide)]
    rfl
  | cons c a' ih =>
    rw [List.cons_append, closesFence]
    by_cases hws : isRWs c = true
    · rw [List.dropWhile_cons_of_pos (by simpa using hws)]
      rw [closesFence] at ih
      exact ih (fun d hd => h d (by simp [hd]))
    · rw [List.dropWhile_cons_of_neg (by simpa using hws)]
      have hc : c ≠ '`' := h c (by simp)
      rw [leadsWith]
      simp [hc]
      intro he
      exact absurd he.symm hc

theorem fenceBody_closes (a : List Char) (r : List Char)
    (h : ∀ c ∈ a, c ≠ '`') :
    fenceBody (a ++ ('\x7d' :: ('\n' :: ('`' :: '`' :: '`' :: r)))) =
      some (a ++ ['\x7d']) := by
  induction a with
  | nil =>
    rw [List.nil_append, fenceBody]
    rw [if_pos]
    · rfl
    · rw [closesFence]
      rw [List.dropWhile_cons_of_pos (by decide)]
      rw [List.dropWhile_cons_of_neg (by decide)]
      simp [leadsWith]
  | cons b a' ih =>
    rw [List.cons_append, fenceBody]
    have hb : b ≠ '`' := h b (by simp)
    have hcond : (b = '\x7d' && closesFence (a' ++ '\x7d' :: ('\n' :: ('`' :: '`' :: '`' :: r)))) = false := by
      by_cases hbb : b = '\x7d'
      · simp only [hbb, decide_True, Bool.true_and]
        exact closesFence_false a' _ (fun d hd => h d (by simp [hd]))
      · simp [hbb]
    rw [if_neg (by simp [hcond])]
    rw [ih (fun d hd => h d (by simp [hd]))]
    rfl

theorem searchFence_wrapped (s' : List Char)
    (hnb : ∀ c ∈ s', c ≠ '`') (hne : s' ≠ [])
    (hlast : s'.getLast hne = '\x7d') :
    searchFence ('`' :: '`' :: '`' :: 'j' :: 's' :: 'o' :: 'n' :: '\n' ::
        (('\x7b' :: s') ++ ('\n' :: '`' :: '`' :: '`' :: []))) =
      some ('\x7b' :: s') := by
  have hdecomp : s'.dropLast ++ [s'.getLast hne] = s' := List.dropLast_append_getLast hne
  rw [hlast] at hdecomp
  have hfb : fenceBody (s' ++ ('\n' :: '`' :: '`' :: '`' :: [])) = some s' := by
    conv in s' ++ _ => rw [← hdecomp]
    rw [List.append_assoc, List.singleton_append]
    rw [fenceBody_closes s'.dropLast []
      (fun c hc => hnb c (List.dropLast_sublist s' |>.mem hc))]
    rw [hdecomp]
  rw [searchFence]
  have hm : matchFenceAt ('`' :: '`' :: '`' :: 'j' :: 's' :: 'o' :: 'n' :: '\n' ::
      (('\x7b' :: s') ++ ('\n' :: '`' :: '`' :: '`' :: []))) = some ('\x7b' :: s') := by
    rw [matchFenceAt, if_pos (by simp [leadsWith])]
    rw [show List.drop 7 ('`' :: '`' :: '`' :: 'j' :: 's' :: 'o' :: 'n' :: '\n' ::
      (('\x7b' :: s') ++ ('\n' :: '`' :: '`' :: '`' :: []))) =
      '\n' :: (('\x7b' :: s') ++ ('\n' :: '`' :: '`' :: '`' :: [])) from rfl]
    rw [List.dropWhile_cons_of_pos (by decide), List.cons_append,
      List.dropWhile_cons_of_neg (by decide)]
    show Option.map (fun g => '\x7b' :: g)
      (fenceBody (s' ++ ('\n' :: '`' :: '`' :: '`' :: []))) = some ('\x7b' :: s')
    rw [hfb]
    rfl
  rw [hm]

theorem insStable_split {α : Type} (key : α → Int) (a : α) (l : List α) :
    insStable key a l =
      l.takeWhile (fun b => decide (key b < key a)) ++
        a :: l.dropWhile (fun b => decide (key b < key a)) := by
  induction l with
  | nil => rfl
  | cons b bs ih =>
    by_cases h : key b < key a
    · rw [insStable, if_pos h, List.takeWhile_cons, List.dropWhile_cons]
      simp only [decide_eq_true_eq, h, if_true, ih, List.cons_append]
    · rw [insStable, if_neg h, List.takeWhile_cons, List.dropWhile_cons]
      simp only [decide_eq_true_eq, h, if_false]
      simp [h]

theorem insStable_perm {α : Type} (key : α → Int) (a : α) (l : List α) :
    List.Perm (insStable key a l) (a :: l) := by
  rw [insStable_split]
  have ht := List.takeWhile_append_dropWhile
    (p := fun b => decide (key b < key a)) (l := l)
  exact List.perm_middle.trans (by rw [ht])

theorem stableSort_perm {α : Type} (key : α → Int) :
    ∀ l : List α, List.Perm (stableSort key l) l := by
  intro l
  induction l with
  | nil => rfl
  | cons x xs ih =>
    exact (insStable_perm key x (stableSort key xs)).trans (List.Perm.cons x ih)

theorem mem_insStable {α : Type} (key : α → Int) (a : α) (l : List α) (x : α) :
    x ∈ insStable key a l ↔ x = a ∨ x ∈ l := by
  rw [(insStable_perm key a l).mem_iff, List.mem_cons]

theorem pairwise_insStable {α : Type} (key : α → Int) (a : α) (l : List α)
    (h : l.Pairwise (fun u v => key u ≤ key v)) :
    (insStable key a l).Pairwise (fun u v => key u ≤ key v) := by
  induction l with
  | nil => simp [insStable]
  | cons b bs ih =>
    rw [List.pairwise_cons] at h
    by_cases hlt : key b < key a
    · rw [insStable, if_pos hlt, List.pairwise_cons]
      constructor
      · intro x hx
        rcases (mem_insStable key a bs x).mp hx with rfl | hx
        · omega
        · exact h.1 x hx
      · exact ih h.2
    · rw [insStable, if_neg hlt, List.pairwise_cons]
      constructor
      · intro x hx
        rcases List.mem_cons.mp hx with rfl | hx
        · omega
        · have := h.1 x hx
          omega
      · exact List.pairwise_cons.mpr h

theorem stableSort_sorted {α : Type} (key : α → Int) :
    ∀ l : List α, (stableSort key l).Pairwise (fun u v => key u ≤ key v) := by
  intro l
  induction l with
  | nil => simp [stableSort]
  | cons x xs ih => exact pairwise_insStable key x (stableSort key xs) ih

theorem filter_insStable {α : Type} (key : α → Int) (k : Int) (a : α) (l : List α) :
    (insStable key a l).filter (fun x => decide (key x = k)) =
      if key a = k then a :: l.filter (fun x => decide (key x = k))
      else l.filter (fun x => decide (key x = k)) := by
  by_cases hak : key a = k
  · rw [if_pos hak, insStable_split, List.filter_append]
    have htake : (l.takeWhile (fun b => decide (key b < key a))).filter
        (fun x => decide (key x = k)) = [] := by
      rw [List.filter_eq_nil_iff]
      intro b hb
      have := List.mem_takeWhile_imp hb
      simp only [decide_eq_true_eq] at this ⊢
      omega
    have hl : l.filter (fun x => decide (key x = k)) =
        (l.takeWhile (fun b => decide (key b < key a))).filter
          (fun x => decide (key x = k)) ++
        (l.dropWhile (fun b => decide (key b < key a))).filter
          (fun x => decide (key x = k)) := by
      rw [← List.filter_append, List.takeWhile_append_dropWhile]
    rw [htake, List.nil_append, List.filter_cons, if_pos (by simp [hak]), hl,
      htake, List.nil_append]
  · rw [if_neg hak, insStable_split, List.filter_append, List.filter_cons,
      if_neg (by simp [hak]), ← List.filter_append,
      List.takeWhile_append_dropWhile]

theorem stableSort_filter {α : Type} (key : α → Int) (k : Int) :
    ∀ l : List α,
      (stableSort key l).filter (fun x => decide (key x = k)) =
        l.filter (fun x => decide (key x = k)) := by
  intro l
  induction l with
  | nil => rfl
  | cons x xs ih =>
    rw [stableSort, filter_insStable]
    by_cases hx : key x = k
    · rw [if_pos hx, ih, List.filter_cons, if_pos (by simp [hx])]
    · rw [if_neg hx, ih, List.filter_cons, if_neg (by simp [hx])]

theorem foldl_max_init_le (els : List Jv) :
    ∀ m : Int, m ≤ els.foldl (fun a el => max a (elY el + elH el)) m := by
  induction els with
  | nil => intro m; simp
  | cons x xs ih =>
    intro m
    rw [List.foldl_cons]
    exact le_trans (le_max_left m _) (ih (max m (elY x + elH x)))

theorem foldl_max_mem (els : List Jv) (el : Jv) (hel : el ∈ els) :
    ∀ m : Int, elY el + elH el ≤ els.foldl (fun a e => max a (elY e + elH e)) m := by
  induction els with
  | nil => cases hel
  | cons x xs ih =>
    intro m
    rw [List.foldl_cons]
    rcases List.mem_cons.mp hel with rfl | hx
    · exact le_trans (le_max_right m _) (foldl_max_init_le xs _)
    · exact ih hx _

theorem foldl_max_cases (els : List Jv) :
    ∀ m : Int, els.foldl (fun a e => max a (elY e + elH e)) m = m ∨
      ∃ el ∈ els, els.foldl (fun a e => max a (elY e + elH e)) m = elY el + elH el := by
  induction els with
  | nil => intro m; left; rfl
  | cons x xs ih =>
    intro m
    rw [List.foldl_cons]
    rcases ih (max m (elY x + elH x)) with h | ⟨el, hel, h⟩
    · rcases max_choice m (elY x + elH x) with hm | hm
      · left; rw [h, hm]
      · right; exact ⟨x, by simp, by rw [h, hm]⟩
    · right; exact ⟨el, by simp [hel], h⟩

theorem page_min_height_ge (gh l gf : List Jv) :
    120 ≤ page_min_height gh l gf := by
  rw [page_min_height, current_max_y]
  have := foldl_max_init_le (all_elements gh l gf) 0
  omega

theorem page_min_height_mem (gh l gf : List Jv) (el : Jv)
    (h : el ∈ gh ++ l ++ gf) :
    elY el + elH el + 120 ≤ page_min_height gh l gf := by
  rw [page_min_height, current_max_y]
  have hmem : el ∈ all_elements gh l gf :=
    (stableSort_perm elY (gh ++ l ++ gf)).mem_iff.mpr h
  have := foldl_max_mem (all_elements gh l gf) el hmem 0
  omega

theorem page_min_height_cases (gh l gf : List Jv) :
    page_min_height gh l gf = 120 ∨
      ∃ el ∈ gh ++ l ++ gf, page_min_height gh l gf = elY el + elH el + 120 := by
  rw [page_min_height, current_max_y]
  rcases foldl_max_cases (all_elements gh l gf) 0 with h | ⟨el, hel, h⟩
  · left; omega
  · right
    exact ⟨el, (stableSort_perm elY (gh ++ l ++ gf)).mem_iff.mp hel, by omega⟩

theorem hideAll_hideAll (l : List PBox) : hideAll (hideAll l) = hideAll l := by
  simp [hideAll]

theorem hideAll_showFirst (id : List Char) (l : List PBox) :
    hideAll (showFirst id l) = hideAll l := by
  induction l with
  | nil => rfl
  | cons p ps ih =>
    by_cases h : p.pid = id
    · simp [showFirst, h, hideAll]
    · simp only [showFirst, if_neg h, hideAll, List.map_cons] at ih ⊢
      rw [ih]

theorem setActive_setActive (id : List Char) (ts : List TabBtn) :
    setActive id (setActive id ts) = setActive id ts := by
  simp [setActive]

theorem showPage_idem (id : List Char) (s : DocState) :
    showPage id (showPage id s) = showPage id s := by
  simp only [showPage, hideAll_showFirst, hideAll_hideAll, setActive_setActive]

theorem showFirst_not_mem (id : List Char) (l : List PBox)
    (h : id ∉ l.map PBox.pid) : showFirst id l = l := by
  induction l with
  | nil => rfl
  | cons p ps ih =>
    simp only [List.map_cons, List.mem_cons] at h
    push_neg at h
    rw [showFirst, if_neg (fun he => h.1 he.symm), ih h.2]

theorem page_tabs_bounds (ps : List Jv) :
    (page_tabs ps).map TabBtn.bound = (page_boxes ps).map PBox.pid := by
  simp [page_tabs, page_boxes, List.map_map]

theorem docPids_assemble (ps : List Jv) :
    docPids (assembleDoc ps) = (page_boxes ps).map PBox.pid := rfl

theorem showPage_unknown (ps : List Jv) (id : List Char)
    (h : id ∉ docPids (assembleDoc ps)) :
    showPage id (assembleDoc ps) =
      ⟨hideAll (page_boxes ps), hideAll (page_boxes ps),
        (page_tabs ps ++ page_tabs ps).map (fun t => ⟨t.bound, t.label, false⟩)⟩ := by
  rw [docPids_assemble] at h
  have htabs : ∀ t ∈ page_tabs ps, t.bound ≠ id := by
    intro t ht he
    apply h
    rw [← page_tabs_bounds]
    exact List.mem_map.mpr ⟨t, ht, he⟩
  rw [showPage]
  have hsf : showFirst id (hideAll (page_boxes ps)) = hideAll (page_boxes ps) := by
    apply showFirst_not_mem
    intro hmem
    apply h
    simpa [hideAll, List.map_map, Function.comp] using hmem
  have hact : setActive id (page_tabs ps ++ page_tabs ps) =
      (page_tabs ps ++ page_tabs ps).map (fun t => ⟨t.bound, t.label, false⟩) := by
    rw [setActive]
    apply List.map_congr_left
    intro t ht
    have : t.bound ≠ id := htabs t (by rcases List.mem_append.mp ht with h1 | h1 <;> exact h1)
    simp [this]
  show DocState.mk (showFirst id (hideAll (assembleDoc ps).dpages))
      (showFirst id (hideAll (assembleDoc ps).mpages))
      (setActive id (assembleDoc ps).tabs) = _
  rw [show (assembleDoc ps).dpages = page_boxes ps from rfl,
    show (assembleDoc ps).mpages = page_boxes ps from rfl,
    show (assembleDoc ps).tabs = page_tabs ps ++ page_tabs ps from rfl,
    hsf, hact]

/-- Executable precondition: the element is a dict whose `y`, if present, is
numeric (what Python's sort key comparison requires of the schema). -/
def yNumOrAbsent (el : Jv) : Bool :=
  match el with
  | .obj kvs =>
    match jGet ['y'] kvs with
    | none => true
    | some (.num _) => true
    | _ => false
  | _ => false

/-- Executable precondition: dict element with numeric-or-absent `y` and
`height` (what the extent computation's `+` requires). -/
def yhNumOrAbsent (el : Jv) : Bool :=
  match el with
  | .obj kvs =>
    (match jGet ['y'] kvs with
     | none => true
     | some (.num _) => true
     | _ => false) &&
    (match jGet "height".data kvs with
     | none => true
     | some (.num _) => true
     | _ => false)
  | _ => false

/-- Dict recognizer (pages must be dicts for `.get` not to raise). -/
def isDict : Jv → Bool
  | .obj _ => true
  | _ => false

/-- A key that `jGet` resolves is a member of the key list. -/
theorem jGet_some_mem (k : List Char) (kvs : List (List Char × Jv)) (v : Jv)
    (h : jGet k kvs = some v) : k ∈ jKeys kvs := by
  induction kvs with
  | nil => cases h
  | cons p tl ih =>
    obtain ⟨k', v'⟩ := p
    rw [jGet] at h
    by_cases he : k' = k
    · rw [jKeys]
      exact he ▸ List.mem_cons_self _ _
    · rw [if_neg he] at h
      rw [jKeys]
      exact List.mem_cons_of_mem _ (ih h)

/-- The code accepts any parsed object whose schema the spec would accept:
a present `pages` key makes the membership test true, and the dict is then
nonempty hence truthy. -/
theorem accept_of_specSchema (v : Jv) (h : specSchemaOk v = true) :
    accept_wireframe v = some v := by
  cases v with
  | obj kvs =>
    rw [specSchemaOk] at h
    rcases hg : jGet "pages".data kvs with _ | w
    · rw [hg] at h; cases h
    · have hmem : "pages".data ∈ jKeys kvs := jGet_some_mem _ _ _ hg
      have hne : kvs ≠ [] := by
        intro he
        subst he
        cases hmem
      rw [accept_wireframe]
      have htr : truthy (Jv.obj kvs) = true := by
        rw [truthy]
        simpa using hne
      rw [htr]
      have hpc : pyContainsPages (Jv.obj kvs) = some true := by
        rw [pyContainsPages]
        simp [hmem]
      rw [hpc]
      rfl
  | null => cases h
  | bool b => cases h
  | num n => cases h
  | str s => cases h
  | arr xs => cases h

/-- The round trip of the spec's §8: serialize the model with the download
serializer, extract and re-validate it through the code's path. -/
def roundTrip (v : Jv) : Option Jv :=
  (extract_json_from_response (json_dumps v)).bind accept_wireframe

/-- C1: the claim says extraction falls back to balanced-brace matching of the
first bare top-level object in prose. The code has no such fallback: with no
fenced match it feeds the whole text to `json.loads`, so prose around a bare
object makes extraction fail where the spec's brace scanner succeeds. -/
theorem c1_counterexample :
    specExtractFirstObject "note \x7b\"a\": 1\x7d".data = some "\x7b\"a\": 1\x7d".data ∧
    json_loads "\x7b\"a\": 1\x7d".data = some (Jv.obj [(['a'], Jv.num 1)]) ∧
    extract_json_from_response "note \x7b\"a\": 1\x7d".data = none :=
  ⟨rfl, rfl, rfl⟩

/-- C1 (amended): when the fenced pattern does not match, the extractor parses
the whole response text with `json.loads`; it therefore succeeds exactly on
responses that are themselves valid JSON, in particular on the serialization
of any well-formed value, and finds no object embedded in prose. -/
theorem c1_whole_text_parse (v : Jv) (hwf : wfV v = true)
    (hnf : searchFence (json_dumps v) = none) :
    extract_json_from_response (json_dumps v) = some v := by
  rw [extract_json_from_response, hnf]
  exact json_loads_dumps v hwf

theorem c1_whole_text_parse_witness :
    extract_json_from_response (json_dumps (Jv.obj [(['a'], Jv.num 1)])) =
      some (Jv.obj [(['a'], Jv.num 1)]) :=
  c1_whole_text_parse (Jv.obj [(['a'], Jv.num 1)]) rfl rfl

/-- C2: the claim says a fenced valid object whose string values contain brace
characters is extracted with correct boundaries. The lazy regex body stops at
the first `\x7d` whose right context is whitespace-then-backticks, so a string
value containing `\x7d` followed by three backticks truncates the group: the
fenced text below is valid JSON, yet extraction returns `None`. -/
theorem c2_counterexample :
    json_loads "\x7b\"a\": \"\x7d```\"\x7d".data =
      some (Jv.obj [(['a'], Jv.str ['\x7d', '`', '`', '`'])]) ∧
    extract_json_from_response "```json\n\x7b\"a\": \"\x7d```\"\x7d\n```".data = none :=
  ⟨rfl, rfl⟩

/-- C2 (amended): for a fenced valid object whose interior contains no backtick
character, extraction does return exactly that object — brace characters inside
string values never terminate extraction early, because the lazy body only
stops at a closing brace whose right context closes the fence. -/
theorem c2_fenced_extraction (body : List Char) (v : Jv)
    (hnb : body.all (fun c => !decide (c = '`')) = true)
    (hload : json_loads ('\x7b' :: body ++ ['\x7d']) = some v) :
    extract_json_from_response
      ("```json\n".data ++ ('\x7b' :: body ++ ['\x7d']) ++ "\n```".data) = some v := by
  have hnb' : ∀ c ∈ body ++ ['\x7d'], c ≠ '`' := by
    intro c hc
    rcases List.mem_append.mp hc with h1 | h1
    · have := List.all_eq_true.mp hnb c h1
      simpa using this
    · rw [List.mem_singleton.mp h1]
      decide
  have hne : body ++ ['\x7d'] ≠ [] := by simp
  have hlast : (body ++ ['\x7d']).getLast hne = '\x7d' := List.getLast_append hne
  have hsf := searchFence_wrapped (body ++ ['\x7d']) hnb' hne hlast
  have hs2 : searchFence
      ("```json\n".data ++ ('\x7b' :: body ++ ['\x7d']) ++ "\n```".data) =
      some ('\x7b' :: (body ++ ['\x7d'])) := hsf
  rw [extract_json_from_response, hs2]
  exact hload

theorem c2_fenced_extraction_witness :
    extract_json_from_response
      ("```json\n".data ++ ('\x7b' :: "\"a\": 1".data ++ ['\x7d']) ++ "\n```".data) =
      some (Jv.obj [(['a'], Jv.num 1)]) :=
  c2_fenced_extraction "\"a\": 1".data (Jv.obj [(['a'], Jv.num 1)]) (by decide) rfl

/-- C3: the claim says a parsed object is accepted only when it has a `pages`
list with at least one page and every page has a `layout` list. The code's
check is weaker: `\x7b"pages": []\x7d` has an empty pages list, so the spec's
schema rejects it, yet the code accepts it. -/
theorem c3_counterexample :
    accept_wireframe (Jv.obj [("pages".data, Jv.arr [])]) =
      some (Jv.obj [("pages".data, Jv.arr [])]) ∧
    specSchemaOk (Jv.obj [("pages".data, Jv.arr [])]) = false :=
  ⟨rfl, rfl⟩

/-- C3 (amended): the code accepts a parsed value exactly when it is truthy and
the Python membership test `"pages" in wireframe_data` yields `True` — no list
check, no per-page `layout` check, and for numbers, booleans and `None` the
membership test raises, which the surrounding handler turns into a `None`
result; every object satisfying the spec's schema is in particular accepted. -/
theorem c3_accept_characterization (v : Jv) :
    (accept_wireframe v = some v ↔
      truthy v = true ∧ pyContainsPages v = some true) ∧
    (specSchemaOk v = true → accept_wireframe v = some v) := by
  constructor
  · constructor
    · intro h
      rw [accept_wireframe] at h
      cases htv : truthy v with
      | false => rw [htv] at h; cases h
      | true =>
        rw [htv] at h
        refine ⟨rfl, ?_⟩
        rcases hpc : pyContainsPages v with _ | b
        · rw [hpc] at h; cases h
        · cases b with
          | false => rw [hpc] at h; cases h
          | true => rfl
    · rintro ⟨htv, hpc⟩
      rw [accept_wireframe, htv, hpc]
      rfl
  · intro h
    exact accept_of_specSchema v h

theorem c3_accept_characterization_witness :
    accept_wireframe (Jv.obj [("pages".data, Jv.arr [Jv.obj [("layout".data, Jv.arr [])]])]) =
      some (Jv.obj [("pages".data, Jv.arr [Jv.obj [("layout".data, Jv.arr [])]])]) :=
  (c3_accept_characterization
    (Jv.obj [("pages".data, Jv.arr [Jv.obj [("layout".data, Jv.arr [])]])])).2 rfl

/-- C4: the claim says a page switch to an id matching no page leaves the
display state unchanged. In the generated script `showPage` first hides every
page container and clears every tab's active class, and only a matching
container is re-shown, so an unknown id changes the state: below, the one-page
document is not equal to itself after switching to the unknown id `nope`. -/
theorem c4_counterexample :
    "nope".data ∉ docPids (assembleDoc [Jv.obj [("pageId".data, Jv.str "home".data)]]) ∧
    showPage "nope".data (assembleDoc [Jv.obj [("pageId".data, Jv.str "home".data)]]) ≠
      assembleDoc [Jv.obj [("pageId".data, Jv.str "home".data)]] := by
  refine ⟨by decide, by decide⟩

/-- C4 (amended): a page switch to an id matching no page does not crash, but
it does not leave the state unchanged either: it hides every page container
and deactivates every tab, leaving a document showing no page at all, while
the set of page containers itself is untouched. -/
theorem c4_unknown_hides_all (ps : List Jv) (pid : List Char)
    (h : pid ∉ docPids (assembleDoc ps)) :
    (∀ p ∈ (showPage pid (assembleDoc ps)).dpages, p.shown = false) ∧
    (∀ t ∈ (showPage pid (assembleDoc ps)).tabs, t.active = false) ∧
    (showPage pid (assembleDoc ps)).dpages.map PBox.pid =
      (assembleDoc ps).dpages.map PBox.pid := by
  rw [showPage_unknown ps pid h]
  refine ⟨?_, ?_, ?_⟩
  · intro p hp
    simp only [hideAll] at hp
    rcases List.mem_map.mp hp with ⟨q, _, rfl⟩
    rfl
  · intro t ht
    rcases List.mem_map.mp ht with ⟨u, _, rfl⟩
    rfl
  · show (hideAll (page_boxes ps)).map PBox.pid = (page_boxes ps).map PBox.pid
    simp [hideAll, List.map_map, Function.comp]

theorem c4_unknown_hides_all_witness :
    (showPage "nope".data (assembleDoc [Jv.obj [("pageId".data, Jv.str "home".data)]])).dpages.map PBox.pid =
      (assembleDoc [Jv.obj [("pageId".data, Jv.str "home".data)]]).dpages.map PBox.pid :=
  (c4_unknown_hides_all [Jv.obj [("pageId".data, Jv.str "home".data)]] "nope".data
    (by decide)).2.2

/-- C5: the composer concatenates `global_header + layout + global_footer` and
sorts that list by `y` (absent `y` read as 0) with Python's stable `list.sort`:
the result is a permutation of the concatenation, it is sorted by the key, and
elements with equal `y` keep their original relative order (the filter at each
key value is unchanged). The hypothesis restricts to elements on which
Python's key comparison is defined, dicts with numeric-or-absent `y`. -/
theorem c5_stable_sort (gh layout gf : List Jv)
    (hwf : (gh ++ layout ++ gf).all yNumOrAbsent = true) :
    List.Perm (all_elements gh layout gf) (gh ++ layout ++ gf) ∧
    (all_elements gh layout gf).Pairwise (fun u w => elY u ≤ elY w) ∧
    ∀ k : Int, (all_elements gh layout gf).filter (fun x => decide (elY x = k)) =
      (gh ++ layout ++ gf).filter (fun x => decide (elY x = k)) :=
  ⟨stableSort_perm elY (gh ++ layout ++ gf),
   stableSort_sorted elY (gh ++ layout ++ gf),
   fun k => stableSort_filter elY k (gh ++ layout ++ gf)⟩

theorem c5_stable_sort_witness :
    List.Perm
      (all_elements [Jv.obj [(['y'], Jv.num 5)]] [Jv.obj [], Jv.obj [(['y'], Jv.num 5)]] [])
      ([Jv.obj [(['y'], Jv.num 5)]] ++ [Jv.obj [], Jv.obj [(['y'], Jv.num 5)]] ++ []) ∧
    (all_elements [Jv.obj [(['y'], Jv.num 5)]] [Jv.obj [], Jv.obj [(['y'], Jv.num 5)]] []).filter
        (fun x => decide (elY x = 5)) =
      ([Jv.obj [(['y'], Jv.num 5)]] ++ [Jv.obj [], Jv.obj [(['y'], Jv.num 5)]] ++ []).filter
        (fun x => decide (elY x = 5)) :=
  ⟨(c5_stable_sort [Jv.obj [(['y'], Jv.num 5)]] [Jv.obj [], Jv.obj [(['y'], Jv.num 5)]] []
      (by decide)).1,
   (c5_stable_sort [Jv.obj [(['y'], Jv.num 5)]] [Jv.obj [], Jv.obj [(['y'], Jv.num 5)]] []
      (by decide)).2.2 5⟩

/-- C6: the claim says the vertical extent is `max(y + height)` plus a padding
constant with a minimum floor of about 800 units. The code computes
`current_max_y + 120` where `current_max_y` starts at 0, so the floor is 120,
not about 800: the empty page yields 120, far below the claimed floor. -/
theorem c6_counterexample :
    page_min_height [] [] [] = 120 ∧ ¬ (800 ≤ page_min_height [] [] []) :=
  ⟨rfl, by decide⟩

/-- C6 (amended): the composed page's `min-height` dominates `y + height + 120`
for every element of header, layout and footer, is at least the floor 120 (the
padding over the initial maximum 0), and equals either that floor or
`y + height + 120` of some element; the floor is 120, not about 800, so the
empty page yields 120. The hypothesis restricts to elements on which Python's
`y`/`height` arithmetic is defined. -/
theorem c6_extent (gh l gf : List Jv)
    (hwf : (gh ++ l ++ gf).all yhNumOrAbsent = true) :
    120 ≤ page_min_height gh l gf ∧
    (∀ el ∈ gh ++ l ++ gf, elY el + elH el + 120 ≤ page_min_height gh l gf) ∧
    (page_min_height gh l gf = 120 ∨
      ∃ el ∈ gh ++ l ++ gf, page_min_height gh l gf = elY el + elH el + 120) :=
  ⟨page_min_height_ge gh l gf,
   fun el h => page_min_height_mem gh l gf el h,
   page_min_height_cases gh l gf⟩

theorem c6_extent_witness :
    120 ≤ page_min_height [] [Jv.obj [(['y'], Jv.num 200), ("height".data, Jv.num 40)]] [] ∧
    elY (Jv.obj [(['y'], Jv.num 200), ("height".data, Jv.num 40)]) +
        elH (Jv.obj [(['y'], Jv.num 200), ("height".data, Jv.num 40)]) + 120 ≤
      page_min_height [] [Jv.obj [(['y'], Jv.num 200), ("height".data, Jv.num 40)]] [] :=
  ⟨(c6_extent [] [Jv.obj [(['y'], Jv.num 200), ("height".data, Jv.num 40)]] []
      (by decide)).1,
   (c6_extent [] [Jv.obj [(['y'], Jv.num 200), ("height".data, Jv.num 40)]] []
      (by decide)).2.1 (Jv.obj [(['y'], Jv.num 200), ("height".data, Jv.num 40)])
      (by simp)⟩

set_option maxRecDepth 8000 in
/-- C7: the claim says an element of unknown `type` renders with the "section"
default style. The `if/elif` chain appends a style fragment only for its eight
recognized types, so type `video` gets the bare base style — not the section
style, whose fragment is nonempty — while the label does keep the type name. -/
theorem c7_counterexample :
    generate_element_render (Jv.obj [("type".data, Jv.str "video".data)]) =
      some ⟨"video".data, "VIDEO".data,
        baseStyleOf [("type".data, Jv.str "video".data)],
        defaultInner "Placeholder Content".data⟩ ∧
    styleExtraFor "video".data = [] ∧
    styleExtraFor "section".data ≠ [] ∧
    (generate_element_render (Jv.obj [("type".data, Jv.str "video".data)])).map ElemBlock.style ≠
      some (baseStyleOf [("type".data, Jv.str "video".data)] ++ styleExtraFor "section".data) :=
  ⟨by decide, rfl, by decide, by decide⟩

/-- C7 (amended): an element whose string `type` is outside the spec's
enumerated set never fails the renderer: it yields a block that keeps the type
as class and uppercased label and uses the plain base style with the default
inner div — the generic appearance, which is not the "section" styling. -/
theorem c7_unknown_type_generic (kvs : List (List Char × Jv)) (t c0 : List Char)
    (htype : jGet "type".data kvs = some (Jv.str t))
    (hunk : t ∉ specTypeEnum)
    (hcontent : asStrOr (jGet "content".data kvs) "Placeholder Content".data = some c0) :
    generate_element_render (Jv.obj kvs) =
      some ⟨t, t.map Char.toUpper, baseStyleOf kvs, defaultInner (replQuot c0)⟩ := by
  have hs : t ≠ "section".data := by
    intro he; exact hunk (by rw [he]; decide)
  have hcd : t ≠ "card".data := by
    intro he; exact hunk (by rw [he]; decide)
  have hbt : t ≠ "button".data := by
    intro he; exact hunk (by rw [he]; decide)
  have hin : t ≠ "input".data := by
    intro he; exact hunk (by rw [he]; decide)
  have him : t ≠ "image".data := by
    intro he; exact hunk (by rw [he]; decide)
  have htx : t ≠ "text".data := by
    intro he; exact hunk (by rw [he]; decide)
  have hhd : t ≠ "header".data := by
    intro he; exact hunk (by rw [he]; decide)
  have hft : t ≠ "footer".data := by
    intro he; exact hunk (by rw [he]; decide)
  have hextra : styleExtraFor t = [] := by
    rw [styleExtraFor, if_neg hs, if_neg hcd, if_neg hbt, if_neg hin, if_neg him,
      if_neg htx, if_neg (by simp [hhd, hft])]
  have hinner : innerFor t (replQuot c0) = defaultInner (replQuot c0) := by
    rw [innerFor, if_neg hs, if_neg hcd, if_neg hbt, if_neg hin, if_neg him,
      if_neg htx, if_neg (by simp [hhd, hft])]
  rw [generate_element_render, htype]
  rw [show asStrOr (some (Jv.str t)) "section".data = some t from rfl]
  rw [hcontent]
  show some (ElemBlock.mk t (t.map Char.toUpper)
    (baseStyleOf kvs ++ styleExtraFor t) (innerFor t (replQuot c0))) = _
  rw [hextra, hinner, List.append_nil]

theorem c7_unknown_type_generic_witness :
    generate_element_render (Jv.obj [("type".data, Jv.str "video".data)]) =
      some ⟨"video".data, "video".data.map Char.toUpper,
        baseStyleOf [("type".data, Jv.str "video".data)],
        defaultInner (replQuot "Placeholder Content".data)⟩ :=
  c7_unknown_type_generic [("type".data, Jv.str "video".data)] "video".data
    "Placeholder Content".data rfl (by decide) rfl

/-- C8: for a page id present in the document, switching to it twice produces
the same display state (visible containers and tab active classes) as
switching once: `showPage` recomputes the state from scratch, so it is
idempotent. -/
theorem c8_switch_idempotent (ps : List Jv) (pid : List Char)
    (h : pid ∈ docPids (assembleDoc ps)) :
    showPage pid (showPage pid (assembleDoc ps)) = showPage pid (assembleDoc ps) :=
  showPage_idem pid (assembleDoc ps)

theorem c8_switch_idempotent_witness :
    showPage "home".data (showPage "home".data
        (assembleDoc [Jv.obj [("pageId".data, Jv.str "home".data)]])) =
      showPage "home".data (assembleDoc [Jv.obj [("pageId".data, Jv.str "home".data)]]) :=
  c8_switch_idempotent [Jv.obj [("pageId".data, Jv.str "home".data)]] "home".data
    (by decide)

/-- A well-formed value satisfying even the spec's schema whose round trip
fails: one of its string values contains a ```json fence, so the extraction
regex matches inside the serialized download text and feeds `json.loads` a
truncated group, which does not parse. -/
def w9c : Jv :=
  Jv.obj [(['t'], Jv.str "```json \x7b\"a\": 1\x7d ```".data),
    ("pages".data, Jv.arr [Jv.obj [("layout".data, Jv.arr [])]])]

/-- C9: the claim says every valid model survives serialization followed by
extraction and validation. It fails: `w9c` is well-formed and satisfies the
spec's schema, yet its round trip yields `None` because a string value spells
a fenced block that hijacks the extraction regex. -/
theorem c9_counterexample :
    wfV w9c = true ∧ specSchemaOk w9c = true ∧ roundTrip w9c = none ∧
    roundTrip w9c ≠ some w9c :=
  ⟨rfl, rfl, rfl,
   fun h => Option.noConfusion ((rfl : roundTrip w9c = none).symm.trans h)⟩

/-- C9 (amended): the round trip does hold for every well-formed model whose
serialization contains no match of the fenced-block pattern (in particular
whenever no string value spells out a backtick fence): extraction then parses
the whole dumped text back to the same value and validation accepts any value
meeting the spec's schema. -/
theorem c9_roundtrip (v : Jv) (hwf : wfV v = true) (hschema : specSchemaOk v = true)
    (hnf : searchFence (json_dumps v) = none) :
    roundTrip v = some v := by
  rw [roundTrip, extract_json_from_response, hnf]
  show (json_loads (json_dumps v)).bind accept_wireframe = some v
  rw [json_loads_dumps v hwf]
  show accept_wireframe v = some v
  exact accept_of_specSchema v hschema

theorem c9_roundtrip_witness :
    roundTrip (Jv.obj [("pages".data, Jv.arr [Jv.obj [("layout".data, Jv.arr [])]])]) =
      some (Jv.obj [("pages".data, Jv.arr [Jv.obj [("layout".data, Jv.arr [])]])]) :=
  c9_roundtrip (Jv.obj [("pages".data, Jv.arr [Jv.obj [("layout".data, Jv.arr [])]])])
    rfl rfl rfl

/-- C10: a page at index `i` that is a dict without `pageId` or `pageTitle`
still gets a navigation tab, bound to the positional default id `page-i` with
label `Page i+1` (and active exactly for the first page); the default id is
never the empty string. -/
theorem c10_page_defaults (ps : List Jv) (i : Nat) (p : Jv)
    (hp : ps[i]? = some p)
    (hdict : isDict p = true)
    (hid : elGet p "pageId".data = none)
    (htitle : elGet p "pageTitle".data = none) :
    (page_tabs ps)[i]? =
      some ⟨"page-".data ++ natToDec i, "Page ".data ++ natToDec (i + 1), decide (i = 0)⟩ ∧
    ("page-".data ++ natToDec i) ≠ ([] : List Char) := by
  constructor
  · have h1 : pidOf i p = "page-".data ++ natToDec i := by rw [pidOf, hid]
    have h2 : ptitleOf i p = "Page ".data ++ natToDec (i + 1) := by rw [ptitleOf, htitle]
    rw [page_tabs, List.getElem?_map, List.getElem?_enum, hp]
    show some (TabBtn.mk (pidOf i p) (ptitleOf i p) (decide (i = 0))) = _
    rw [h1, h2]
  · show 'p' :: ("age-".data ++ natToDec i) ≠ []
    exact List.cons_ne_nil _ _

theorem c10_page_defaults_witness :
    (page_tabs [Jv.obj []])[0]? =
      some ⟨"page-".data ++ natToDec 0, "Page ".data ++ natToDec 1, decide (0 = 0)⟩ ∧
    ("page-".data ++ natToDec 0) ≠ ([] : List Char) :=
  c10_page_defaults [Jv.obj []] 0 (Jv.obj []) rfl rfl rfl rfl
